import Mathlib

/-!
# Verification of the chunked identifier store

This development embeds the persistent identifier store of the
redgifs-bulk-downloader extension: the chunk-key naming scheme, the
index/chunk data model, the background operations `memAddId`,
`memGetCount`, `memClearAll` (background service worker), and the
options-page operations `exportIds` and `importIdsFromList`
(merge / override bulk loads), together with the promise-chain
mutation serializer `withMemLock`.

Storage keys are modelled as lists of characters; identifiers are
`String`s.  `chrome.storage.local` is modelled as a record with the
index slot (stored under the key `downloadedIds_v2_index`, which does
not carry the chunk-key stem) plus the association list of records
whose keys carry the chunk-key stem `downloadedIds_v2_chunk_`; keys
that carry neither (e.g. the settings record) are never read or
written by the store operations and are omitted.  JavaScript objects
used as presence sets are modelled as insertion-ordered lists of
identifiers; `obj[id] = 1` is `objSet`, which appends exactly when the
key is absent, matching JS field-assignment order semantics.
-/

/-- The characters of a storage key. -/
abbrev Key := List Char

/-- `DL_CHUNK_SIZE` in the source. -/
def DL_CHUNK_SIZE : Nat := 5000

/-- The characters of `DL_CHUNK_PREFIX` in the source (the chunk-key stem). -/
def chunkStem : Key := "downloadedIds_v2_chunk_".data

/-! ## Decimal digits: `String(n)`, `padStart(4, '0')`, and the `\d{4}` parse -/

/-- One decimal digit rendered as a character, as in JavaScript `String(n)`. -/
def digitToChar : Nat → Char
  | 0 => '0' | 1 => '1' | 2 => '2' | 3 => '3' | 4 => '4'
  | 5 => '5' | 6 => '6' | 7 => '7' | 8 => '8' | 9 => '9'
  | _ => '?'

/-- The numeric value of a digit character (as used by `parseInt`). -/
def charToDigit (c : Char) : Nat := c.toNat - 48

/-- `\d` of the key regular expression: the character is one of `0`–`9`. -/
def isDig (c : Char) : Bool := 48 ≤ c.toNat && c.toNat ≤ 57

/-- Little-endian decimal digits, structurally recursive on a fuel
argument so that concrete instances reduce definitionally; the fuel is
sufficient whenever `n ≤ fuel`. -/
def digitsRevAux : Nat → Nat → List Nat
  | _, 0 => []
  | 0, _+1 => []
  | fuel+1, n+1 => ((n+1) % 10) :: digitsRevAux fuel ((n+1) / 10)

/-- Little-endian decimal digits of a positive number; `digitsRevN 0 = []`. -/
def digitsRevN (n : Nat) : List Nat := digitsRevAux n n

/-- The characters of JavaScript `String(n)` for a natural number `n`. -/
def natChars (n : Nat) : List Char :=
  (if n = 0 then [0] else (digitsRevN n).reverse).map digitToChar

/-- `s.padStart(4, '0')` on a character list. -/
def padStart4 (s : List Char) : List Char :=
  List.replicate (4 - s.length) '0' ++ s

/-- `chunkKeyFromNum` in the source: `DL_CHUNK_PREFIX + String(n).padStart(4, '0')`. -/
def chunkKeyFromNum (n : Nat) : Key :=
  chunkStem ++ padStart4 (natChars n)

/-- Value of a big-endian digit-character list, as `parseInt(m, 10)` computes it. -/
def valC (s : List Char) : Nat :=
  s.foldl (fun a c => 10 * a + charToDigit c) 0

/-- `parseChunkNum` in the source: match `^downloadedIds_v2_chunk_(\d{4})$`
and return the parsed group, else `null`. -/
def parseChunkNum (key : Key) : Option Nat :=
  if key.take chunkStem.length = chunkStem then
    let suf := key.drop chunkStem.length
    if suf.length = 4 ∧ suf.all isDig then some (valC suf) else none
  else none

/-! Digit lemmas -/

/-- Value of a big-endian digit list. -/
def valD (ds : List Nat) : Nat := ds.foldl (fun a d => 10 * a + d) 0

/-- Little-endian value of a digit list. -/
def valLE (ds : List Nat) : Nat := ds.foldr (fun d a => d + 10 * a) 0

theorem digitsRevAux_lt_ten : ∀ fuel n, ∀ d ∈ digitsRevAux fuel n, d < 10 := by
  intro fuel
  induction fuel with
  | zero =>
    intro n d h
    cases n <;> simp [digitsRevAux] at h
  | succ f ih =>
    intro n d h
    cases n with
    | zero => simp [digitsRevAux] at h
    | succ m =>
      rw [digitsRevAux] at h
      rcases List.mem_cons.mp h with h1 | h2
      · subst h1; exact Nat.mod_lt _ (by decide)
      · exact ih _ d h2

theorem digitsRevN_lt_ten (n : Nat) : ∀ d ∈ digitsRevN n, d < 10 :=
  digitsRevAux_lt_ten n n

theorem valLE_digitsRevAux : ∀ fuel n, n ≤ fuel → valLE (digitsRevAux fuel n) = n := by
  intro fuel
  induction fuel with
  | zero =>
    intro n h
    have : n = 0 := Nat.le_zero.mp h
    subst this; rfl
  | succ f ih =>
    intro n h
    cases n with
    | zero => rfl
    | succ m =>
      rw [digitsRevAux, valLE, List.foldr_cons]
      have hf : (m + 1) / 10 ≤ f := by
        have := Nat.div_lt_self (Nat.succ_pos m) (by decide : 1 < 10)
        omega
      have : (digitsRevAux f ((m+1) / 10)).foldr (fun d a => d + 10 * a) 0 = (m+1) / 10 :=
        ih _ hf
      rw [this]
      omega

theorem valLE_digitsRevN (n : Nat) : valLE (digitsRevN n) = n :=
  valLE_digitsRevAux n n le_rfl

theorem digitsRevAux_fuel_irrel :
    ∀ f1 f2 n, n ≤ f1 → n ≤ f2 → digitsRevAux f1 n = digitsRevAux f2 n := by
  intro f1
  induction f1 with
  | zero =>
    intro f2 n h1 _
    have : n = 0 := Nat.le_zero.mp h1
    subst this
    cases f2 <;> rfl
  | succ f ih =>
    intro f2 n h1 h2
    cases n with
    | zero => cases f2 <;> rfl
    | succ m =>
      cases f2 with
      | zero => omega
      | succ g =>
        rw [digitsRevAux, digitsRevAux]
        congr 1
        have hd : (m + 1) / 10 < m + 1 := Nat.div_lt_self (Nat.succ_pos m) (by decide)
        exact ih g _ (by omega) (by omega)

theorem digitsRevN_zero : digitsRevN 0 = [] := rfl

theorem digitsRevN_succ (p : Nat) :
    digitsRevN (p + 1) = ((p + 1) % 10) :: digitsRevN ((p + 1) / 10) := by
  rw [digitsRevN, digitsRevAux]
  congr 1
  have hd : (p + 1) / 10 < p + 1 := Nat.div_lt_self (Nat.succ_pos p) (by decide)
  exact digitsRevAux_fuel_irrel p _ _ (by omega) le_rfl

theorem foldl_val_reverse (ds : List Nat) :
    ∀ a : Nat, (ds.reverse).foldl (fun x d => 10 * x + d) a = a * 10 ^ ds.length + valLE ds := by
  induction ds with
  | nil => intro a; simp [valLE]
  | cons d t ih =>
    intro a
    rw [List.reverse_cons, List.foldl_append, ih]
    simp only [List.foldl_cons, List.foldl_nil, valLE, List.foldr_cons, List.length_cons]
    ring_nf
    omega

theorem valD_reverse_digitsRevN (n : Nat) : valD (digitsRevN n).reverse = n := by
  rw [valD, foldl_val_reverse]
  simp [valLE_digitsRevN]

theorem charToDigit_digitToChar {d : Nat} (h : d < 10) : charToDigit (digitToChar d) = d := by
  interval_cases d <;> rfl

theorem isDig_digitToChar {d : Nat} (h : d < 10) : isDig (digitToChar d) = true := by
  interval_cases d <;> rfl

theorem foldl_valC_map_digitToChar :
    ∀ (ds : List Nat), (∀ d ∈ ds, d < 10) → ∀ (a : Nat),
      (ds.map digitToChar).foldl (fun x c => 10 * x + charToDigit c) a =
        ds.foldl (fun x d => 10 * x + d) a := by
  intro ds
  induction ds with
  | nil => intro _ a; rfl
  | cons d t ih =>
    intro h a
    simp only [List.map_cons, List.foldl_cons]
    rw [charToDigit_digitToChar (h d (List.mem_cons_self d t))]
    exact ih (fun x hx => h x (List.mem_cons_of_mem d hx)) _

/-- `valC` over digit characters is `valD` over the digits. -/
theorem valC_map_digitToChar (ds : List Nat) (h : ∀ d ∈ ds, d < 10) :
    valC (ds.map digitToChar) = valD ds :=
  foldl_valC_map_digitToChar ds h 0

/-- The numeric value of `String(n)` is `n`. -/
theorem valC_natChars (n : Nat) : valC (natChars n) = n := by
  rw [natChars]
  by_cases h0 : n = 0
  · subst h0; rfl
  · rw [if_neg h0, valC_map_digitToChar _ (fun d hd => digitsRevN_lt_ten n d (List.mem_reverse.mp hd))]
    exact valD_reverse_digitsRevN n

/-- Leading `'0'` padding does not change the numeric value. -/
theorem valC_replicate_zero (k : Nat) (s : List Char) :
    valC (List.replicate k '0' ++ s) = valC s := by
  induction k with
  | zero => rfl
  | succ m ih =>
    rw [List.replicate_succ, List.cons_append, valC, List.foldl_cons]
    have : (10 * 0 + charToDigit '0') = 0 := rfl
    rw [this]
    exact ih

/-- The numeric value of the padded decimal rendering of `n` is `n`. -/
theorem valC_padStart4_natChars (n : Nat) : valC (padStart4 (natChars n)) = n := by
  rw [padStart4, valC_replicate_zero, valC_natChars]

/-- Chunk keys are injective in the sequence number. -/
theorem chunkKeyFromNum_inj : Function.Injective chunkKeyFromNum := by
  intro a b h
  rw [chunkKeyFromNum, chunkKeyFromNum] at h
  have h2 : padStart4 (natChars a) = padStart4 (natChars b) := by
    exact List.append_cancel_left h
  have := congrArg valC h2
  rwa [valC_padStart4_natChars, valC_padStart4_natChars] at this

theorem natChars_ne_nil (n : Nat) : natChars n ≠ [] := by
  rw [natChars]
  by_cases h0 : n = 0
  · subst h0; simp
  · rw [if_neg h0]
    have : digitsRevN n ≠ [] := by
      cases n with
      | zero => exact absurd rfl h0
      | succ m => rw [digitsRevN_succ]; exact List.cons_ne_nil _ _
    simp [this]

theorem length_digitsRevN_le {n k : Nat} (h : n < 10 ^ k) : (digitsRevN n).length ≤ k := by
  induction k generalizing n with
  | zero =>
    have : n = 0 := by omega
    subst this; simp [digitsRevN_zero]
  | succ m ih =>
    cases n with
    | zero => simp [digitsRevN_zero]
    | succ p =>
      rw [digitsRevN_succ, List.length_cons]
      have hd : (p + 1) / 10 < 10 ^ m := by
        rw [Nat.div_lt_iff_lt_mul (by decide : 0 < 10)]
        calc p + 1 < 10 ^ (m + 1) := h
          _ = 10 ^ m * 10 := by rw [pow_succ]
      exact Nat.succ_le_succ (ih hd)

theorem le_length_digitsRevN {n k : Nat} (h : 10 ^ k ≤ n) : k < (digitsRevN n).length := by
  induction k generalizing n with
  | zero =>
    cases n with
    | zero => simp at h
    | succ p => rw [digitsRevN_succ]; simp
  | succ m ih =>
    cases n with
    | zero => exfalso; have := Nat.pos_pow_of_pos (m+1) (by decide : 0 < 10); omega
    | succ p =>
      rw [digitsRevN_succ, List.length_cons]
      have hd : 10 ^ m ≤ (p + 1) / 10 := by
        rw [Nat.le_div_iff_mul_le (by decide : 0 < 10)]
        calc 10 ^ m * 10 = 10 ^ (m + 1) := (pow_succ 10 m).symm
          _ ≤ p + 1 := h
      exact Nat.succ_lt_succ (ih hd)

theorem length_natChars_le {n : Nat} (h : n ≤ 9999) : (natChars n).length ≤ 4 := by
  rw [natChars, List.length_map]
  by_cases h0 : n = 0
  · subst h0; simp
  · rw [if_neg h0, List.length_reverse]
    exact length_digitsRevN_le (by omega)

theorem length_natChars_ge {n : Nat} (h : 10000 ≤ n) : 5 ≤ (natChars n).length := by
  rw [natChars, List.length_map]
  have h0 : n ≠ 0 := by omega
  rw [if_neg h0, List.length_reverse]
  have : (4 : Nat) < (digitsRevN n).length := le_length_digitsRevN (by simpa using h)
  omega

theorem all_isDig_natChars (n : Nat) : (natChars n).all isDig = true := by
  rw [natChars, List.all_eq_true]
  intro c hc
  rcases List.mem_map.mp hc with ⟨d, hd, rfl⟩
  by_cases h0 : n = 0
  · subst h0
    simp at hd
    subst hd; rfl
  · rw [if_neg h0] at hd
    exact isDig_digitToChar (digitsRevN_lt_ten n d (List.mem_reverse.mp hd))

theorem all_isDig_padStart4_natChars (n : Nat) :
    (padStart4 (natChars n)).all isDig = true := by
  rw [padStart4, List.all_append]
  refine Bool.and_eq_true_iff.mpr ⟨?_, all_isDig_natChars n⟩
  rw [List.all_eq_true]
  intro c hc
  rw [List.eq_of_mem_replicate hc]
  rfl

/-- Round trip within the 4-digit padding width. -/
theorem parseChunkNum_chunkKeyFromNum {n : Nat} (h : n ≤ 9999) :
    parseChunkNum (chunkKeyFromNum n) = some n := by
  rw [parseChunkNum, chunkKeyFromNum]
  rw [List.take_left, if_pos rfl, List.drop_left]
  have hlen : (padStart4 (natChars n)).length = 4 := by
    rw [padStart4, List.length_append, List.length_replicate]
    have := length_natChars_le h
    omega
  rw [if_pos ⟨hlen, all_isDig_padStart4_natChars n⟩, valC_padStart4_natChars]

/-- Beyond the 4-digit padding width the generated key does not parse. -/
theorem parseChunkNum_chunkKeyFromNum_big {n : Nat} (h : 10000 ≤ n) :
    parseChunkNum (chunkKeyFromNum n) = none := by
  rw [parseChunkNum, chunkKeyFromNum]
  rw [List.take_left, if_pos rfl, List.drop_left]
  have hlen : (padStart4 (natChars n)).length ≠ 4 := by
    rw [padStart4, List.length_append, List.length_replicate]
    have := length_natChars_ge h
    omega
  rw [if_neg (by intro hc; exact hlen hc.1)]

/-! ## The storage model -/

/-- The index record `downloadedIds_v2_index`:
`{ version, chunkSize, chunks, counts, total }`.  `counts` is a JS
object used only through field lookup; it is modelled as an
association list where the first matching entry wins, so a field
update may simply prepend. -/
structure Index where
  version : Nat
  chunkSize : Nat
  chunks : List Key
  counts : List (Key × Nat)
  total : Nat
deriving DecidableEq

/-- `chrome.storage.local`: the index slot plus the records whose keys
carry the chunk stem, as an insertion-ordered association list with
unique keys. -/
structure Storage where
  index : Option Index
  recs : List (Key × List String)
deriving DecidableEq

/-- `chunksData[key] || {}`: the chunk record stored under `k`, or the
empty presence set. -/
def getRec (s : Storage) (k : Key) : List String :=
  match s.recs.find? (fun p => p.1 = k) with
  | some p => p.2
  | none => []

/-- A single-record `chrome.storage.local.set({[k]: v})`: replace in
place if the key exists, else append (JS object key order). -/
def setRec : List (Key × List String) → Key → List String → List (Key × List String)
  | [], k, v => [(k, v)]
  | (k1, v1) :: rest, k, v =>
    if k1 = k then (k, v) :: rest else (k1, v1) :: setRec rest k v

/-- Write one chunk record. -/
def putRec (s : Storage) (k : Key) (v : List String) : Storage :=
  { s with recs := setRec s.recs k v }

/-- Write the index record. -/
def putIdx (s : Storage) (idx : Index) : Storage :=
  { s with index := some idx }

/-- `chrome.storage.local.remove(keys)` restricted to chunk records. -/
def dropRecs (s : Storage) (keys : List Key) : Storage :=
  { s with recs := s.recs.filter (fun p => !(keys.contains p.1)) }

/-- JS object field lookup on `counts` (`idx.counts?.[k]`). -/
def getCount (m : List (Key × Nat)) (k : Key) : Option Nat :=
  match m.find? (fun p => p.1 = k) with
  | some p => some p.2
  | none => none

/-- JS object field assignment on `counts`; observationally (through
`getCount`) identical to in-place update. -/
def setCount (m : List (Key × Nat)) (k : Key) (v : Nat) : List (Key × Nat) :=
  (k, v) :: m

/-- `obj[id] = 1` on a presence set. -/
def objSet (l : List String) (x : String) : List String :=
  if l.contains x then l else l ++ [x]

/-- The comparator `(parseChunkNum(a) ?? 0) - (parseChunkNum(b) ?? 0)`. -/
def keyLEv (a b : Key) : Prop :=
  (parseChunkNum a).getD 0 ≤ (parseChunkNum b).getD 0

instance : DecidableRel keyLEv := fun a b => Nat.decLe _ _

/-- `k.startsWith(DL_CHUNK_PREFIX)`. -/
def hasStem (k : Key) : Bool := k.take chunkStem.length = chunkStem

/-- `discoverChunkKeys`: all stored keys with the chunk stem, sorted by
parsed sequence number (`?? 0`). -/
def discoverChunkKeysM (s : Storage) : List Key :=
  List.insertionSort keyLEv ((s.recs.map Prod.fst).filter hasStem)

/-- `rebuildIndexFromChunks`: recompute per-chunk cardinalities and the
total from the given chunk records. -/
def rebuildIndexFromChunksM (s : Storage) (chunkKeys : List Key) : Index :=
  { version := 2
    chunkSize := DL_CHUNK_SIZE
    chunks := chunkKeys
    counts := chunkKeys.map (fun k => (k, (getRec s k).length))
    total := (chunkKeys.map (fun k => (getRec s k).length)).sum }

/-- `ensureIndex` of the background service worker: trust a structurally
valid index (normalising `chunkSize || DL_CHUNK_SIZE`; the `counts || {}`
and `total || 0` defaults are identities in this typed model), else
rebuild from a full scan and persist the rebuilt index. -/
def ensureIndexB (s : Storage) : Index × Storage :=
  match s.index with
  | some idx =>
    ({ idx with chunkSize := if idx.chunkSize = 0 then DL_CHUNK_SIZE else idx.chunkSize }, s)
  | none =>
    let idx := rebuildIndexFromChunksM s (discoverChunkKeysM s)
    (idx, putIdx s idx)

/-- `ensureIndex` of the options page: same, but the fast path returns
the stored index as-is. -/
def ensureIndexO (s : Storage) : Index × Storage :=
  match s.index with
  | some idx => (idx, s)
  | none =>
    let idx := rebuildIndexFromChunksM s (discoverChunkKeysM s)
    (idx, putIdx s idx)

/-- The `reduce` computing `maxNum` over a chunk list, starting at `-1`
and skipping keys that do not parse. -/
def maxChunkNumFold (chunks : List Key) : Int :=
  chunks.foldl
    (fun m k =>
      match parseChunkNum k with
      | some n => if (n : Int) > m then (n : Int) else m
      | none => m)
    (-1)

/-- Result of `memAddId`. -/
inductive AddRes where
  | fail (msg : String)
  | already (total : Nat)
  | added (total : Nat)
deriving DecidableEq

/-- The read-modify-write tail of `memAddId` on the resolved active
chunk (source lines 94–109). -/
def addToChunk (id : String) (idx : Index) (activeKey : Key) (s : Storage) :
    AddRes × Storage :=
  if (getRec s activeKey).contains id then
    (.already idx.total, s)
  else
    (.added (idx.total + 1),
      putIdx (putRec s activeKey (objSet (getRec s activeKey) id))
        { idx with
          counts := setCount idx.counts activeKey ((getCount idx.counts activeKey).getD 0 + 1)
          total := idx.total + 1 })

/-- `memAddId` (the body executed under `withMemLock`). -/
def memAddId (id : String) (s0 : Storage) : AddRes × Storage :=
  if id = "" then (.fail "missing id", s0)
  else
    let p := ensureIndexB s0
    let idx0 := p.1
    let s1 := p.2
    let chunkSize := if idx0.chunkSize = 0 then DL_CHUNK_SIZE else idx0.chunkSize
    let act : Option Key :=
      match idx0.chunks.getLast? with
      | some last => if (getCount idx0.counts last).getD 0 < chunkSize then some last else none
      | none => none
    match act with
    | some activeKey => addToChunk id idx0 activeKey s1
    | none =>
      let activeKey := chunkKeyFromNum (maxChunkNumFold idx0.chunks + 1).toNat
      let idx1 : Index :=
        { idx0 with
          chunks := idx0.chunks ++ [activeKey]
          counts := setCount idx0.counts activeKey 0 }
      let s2 := putRec (putIdx s1 idx1) activeKey []
      addToChunk id idx1 activeKey s2

/-- `memGetCount` (the body executed under `withMemLock`). -/
def memGetCount (s : Storage) : Nat × Storage :=
  let p := ensureIndexB s
  (p.1.total, p.2)

/-- `memClearAll` (the body executed under `withMemLock`): remove the
index record and every chunk record it references, falling back to a
full scan when the index is absent. -/
def memClearAll (s : Storage) : Storage :=
  let keys := match s.index with
    | some idx => idx.chunks
    | none => discoverChunkKeysM s
  { index := none, recs := s.recs.filter (fun p => !(keys.contains p.1)) }

/-- The identifier set reachable through the index: `x` is stored iff
some chunk listed by the index contains it. -/
def memberOf (s : Storage) (x : String) : Bool :=
  match s.index with
  | some idx => idx.chunks.any (fun k => (getRec s k).contains x)
  | none => false

/-! ## Options page: export, import payload validation, bulk import -/

/-- A parsed JSON value (result of `JSON.parse`). -/
inductive JsonVal where
  | null
  | bool (b : Bool)
  | num (q : Int)
  | str (s : String)
  | arr (elems : List JsonVal)
  | obj (fields : List (String × JsonVal))

/-- JS object field access on a parsed JSON object (`JSON.parse` keeps
the last occurrence of a duplicated key). -/
def jsField (fields : List (String × JsonVal)) (k : String) : Option JsonVal :=
  fields.foldl (fun acc p => if p.1 = k then some p.2 else acc) none

/-- `normalizeImportedIds`: a bare array, or an object whose `ids`
field is an array; anything else is `null`.  (A primitive value either
is falsy or has no `ids` field, so it also yields `null`.) -/
def normalizeImportedIds (parsed : JsonVal) : Option (List JsonVal) :=
  match parsed with
  | .arr xs => some xs
  | .obj fields =>
    match jsField fields "ids" with
    | some (.arr xs) => some xs
    | _ => none
  | _ => none

/-- The failure modes of `readAndValidateFile`, distinguished by the
message it shows. -/
inductive ImpErr where
  | invalidJson
  | badShape
  | tooLarge
deriving DecidableEq

/-- `readAndValidateFile` applied to the outcome of `JSON.parse`
(`none` models a parse failure). -/
def readAndValidateFile (parsed : Option JsonVal) : Except ImpErr (List JsonVal) :=
  match parsed with
  | none => .error .invalidJson
  | some p =>
    match normalizeImportedIds p with
    | none => .error .badShape
    | some ids =>
      if ids.length > 5000000 then .error .tooLarge else .ok ids

/-- `ids.filter(x => typeof x === 'string' && x.length > 0)`. -/
def jsFilterStrings (l : List JsonVal) : List String :=
  l.filterMap (fun v =>
    match v with
    | .str s => if s.length > 0 then some s else none
    | _ => none)

/-- `[...new Set(l)]`: insertion-ordered deduplication. -/
def dedupJS (l : List String) : List String :=
  l.foldl (fun acc x => if acc.contains x then acc else acc ++ [x]) []

/-- State of the chunk-packing loop shared by both import modes
(`newChunks` / `newCounts` / `chunkNum` / `cur` / `curCount` plus the
storage receiving the flushed writes and the running total). -/
structure PackSt where
  s : Storage
  newChunks : List Key
  newCounts : List (Key × Nat)
  chunkNum : Nat
  cur : List String
  curCount : Nat
  total : Nat
deriving DecidableEq

/-- The `flush` closure of the import loop. -/
def flushP (st : PackSt) : PackSt :=
  { s := putRec st.s (chunkKeyFromNum st.chunkNum) st.cur
    newChunks := st.newChunks ++ [chunkKeyFromNum st.chunkNum]
    newCounts := st.newCounts ++ [(chunkKeyFromNum st.chunkNum, st.curCount)]
    chunkNum := st.chunkNum + 1
    cur := []
    curCount := 0
    total := st.total }

/-- One iteration of the import loop body: store the identifier in the
current chunk, bump the counters, flush when the chunk is full. -/
def packStep (st : PackSt) (id : String) : PackSt :=
  if DL_CHUNK_SIZE ≤ st.curCount + 1 then
    flushP { st with cur := objSet st.cur id, curCount := st.curCount + 1, total := st.total + 1 }
  else
    { st with cur := objSet st.cur id, curCount := st.curCount + 1, total := st.total + 1 }

/-- The whole packing loop, including the trailing `if (curCount > 0) flush()`. -/
def packAll (s : Storage) (startNum : Nat) (ids : List String) : PackSt :=
  let st := ids.foldl packStep
    { s := s, newChunks := [], newCounts := [], chunkNum := startNum
      cur := [], curCount := 0, total := 0 }
  if 0 < st.curCount then flushP st else st

/-- Result of `importIdsFromList`, carrying the quantities shown to the
user. -/
inductive ImpRes where
  | noUsable
  | nothingNew (dup : Nat)
  | merged (newCount dup total : Nat)
  | imported (total : Nat)
deriving DecidableEq

/-- Everything `importIdsFromList` does after its first `await`
boundary, given the index captured by `ensureIndex` (the `await`s make
this tail interleavable with operations of other execution contexts). -/
def importPhase2 (cleaned : List String) (mergeMode : Bool) (oldIdx : Index) (s : Storage) :
    ImpRes × Storage :=
  let startNum : Nat := (maxChunkNumFold oldIdx.chunks + 1).toNat
  if mergeMode then
    let existing : List String := (oldIdx.chunks.map (fun k => getRec s k)).flatten
    let toWrite := cleaned.filter (fun id => ¬ existing.contains id)
    if toWrite = [] then (.nothingNew cleaned.length, s)
    else
      let F := packAll s startNum toWrite
      let newIdx : Index :=
        { version := 2, chunkSize := DL_CHUNK_SIZE
          chunks := oldIdx.chunks ++ F.newChunks
          counts := F.newCounts ++ oldIdx.counts
          total := oldIdx.total + F.total }
      (.merged F.total (cleaned.length - toWrite.length) newIdx.total, putIdx F.s newIdx)
  else
    let F := packAll s startNum cleaned
    let newIdx : Index :=
      { version := 2, chunkSize := DL_CHUNK_SIZE
        chunks := F.newChunks, counts := F.newCounts, total := F.total }
    let s2 := putIdx F.s newIdx
    let s3 := if oldIdx.chunks = [] then s2 else dropRecs s2 oldIdx.chunks
    (.imported F.total, s3)

/-- `importIdsFromList(ids, mode)`: clean the input, capture the index,
then run the mode-specific tail. -/
def importIdsFromList (ids : List JsonVal) (mergeMode : Bool) (s : Storage) :
    ImpRes × Storage :=
  let cleaned := dedupJS (jsFilterStrings ids)
  if cleaned = [] then (.noUsable, s)
  else
    let p := ensureIndexO s
    importPhase2 cleaned mergeMode p.1 p.2

/-- `exportIds` (sans UI): `none` models the early "Nothing to export"
return; otherwise the flattened identifier list with its count. -/
def exportAllM (s : Storage) : Option (List String × Nat) × Storage :=
  let p := ensureIndexO s
  let idx := p.1
  if idx.chunks = [] then (none, p.2)
  else
    let ids := (idx.chunks.map (fun k => getRec p.2 k)).flatten
    (some (ids, ids.length), p.2)

/-- The import button flow: `readAndValidateFile` followed by
`importIdsFromList`; a validation failure leaves the store untouched. -/
def importFlow (parsed : Option JsonVal) (mergeMode : Bool) (s : Storage) :
    Except ImpErr (ImpRes × Storage) :=
  match readAndValidateFile parsed with
  | .error e => .error e
  | .ok ids => .ok (importIdsFromList ids mergeMode s)

/-- The storage left by the import button flow. -/
def importFlowState (parsed : Option JsonVal) (mergeMode : Bool) (s : Storage) : Storage :=
  match importFlow parsed mergeMode s with
  | .error _ => s
  | .ok r => r.2

/-! ## Facts about the max-sequence fold -/

/-- The step function of the `maxNum` reduce. -/
def maxStep (m : Int) (k : Key) : Int :=
  match parseChunkNum k with
  | some n => if (n : Int) > m then (n : Int) else m
  | none => m

theorem maxChunkNumFold_eq_foldl (l : List Key) :
    maxChunkNumFold l = l.foldl maxStep (-1) := rfl

theorem maxStep_none {k : Key} (h : parseChunkNum k = none) (m : Int) :
    maxStep m k = m := by
  rw [maxStep, h]

theorem maxChunkNumFold_skip {k : Key} (h : parseChunkNum k = none) (l1 l2 : List Key) :
    maxChunkNumFold (l1 ++ k :: l2) = maxChunkNumFold (l1 ++ l2) := by
  rw [maxChunkNumFold_eq_foldl, maxChunkNumFold_eq_foldl,
    List.foldl_append, List.foldl_append, List.foldl_cons, maxStep_none h]

theorem le_maxStep (m : Int) (k : Key) : m ≤ maxStep m k := by
  rw [maxStep]
  cases hp : parseChunkNum k with
  | none => exact le_rfl
  | some n =>
    simp only
    by_cases h1 : (n : Int) > m
    · rw [if_pos h1]; omega
    · rw [if_neg h1]

theorem foldl_maxStep_ge_init (l : List Key) (a : Int) :
    a ≤ l.foldl maxStep a := by
  induction l generalizing a with
  | nil => exact le_rfl
  | cons k t ih =>
    rw [List.foldl_cons]
    exact le_trans (le_maxStep a k) (ih _)

/-- Every parseable key in the list is bounded by the fold's result. -/
theorem maxChunkNumFold_ge {l : List Key} {k : Key} {n : Nat}
    (hk : k ∈ l) (hp : parseChunkNum k = some n) :
    (n : Int) ≤ maxChunkNumFold l := by
  rcases List.append_of_mem hk with ⟨l1, l2, rfl⟩
  rw [maxChunkNumFold_eq_foldl, List.foldl_append, List.foldl_cons]
  refine le_trans ?_ (foldl_maxStep_ge_init l2 _)
  rw [maxStep, hp]
  simp only
  by_cases h1 : (n : Int) > List.foldl maxStep (-1) l1
  · rw [if_pos h1]
  · rw [if_neg h1]; omega

/-- The fold never drops below its `-1` start. -/
theorem maxChunkNumFold_ge_neg_one (l : List Key) : -1 ≤ maxChunkNumFold l :=
  foldl_maxStep_ge_init l (-1)

/-- **C10.** Chunk-record naming round-trips exactly within the fixed
4-digit padding width: for `n ≤ 9999` the generated key parses back to
`n`; for `n ≥ 10000` the generated key fails the `\d{4}` match and
parses to `null`, so such a key is transparent to the max-sequence
fold used to allocate new chunk numbers. -/
theorem C10_key_naming_roundtrip :
    (∀ n : Nat, n ≤ 9999 → parseChunkNum (chunkKeyFromNum n) = some n) ∧
    (∀ n : Nat, 10000 ≤ n → parseChunkNum (chunkKeyFromNum n) = none) ∧
    (∀ n : Nat, 10000 ≤ n → ∀ l1 l2 : List Key,
      maxChunkNumFold (l1 ++ chunkKeyFromNum n :: l2) = maxChunkNumFold (l1 ++ l2)) :=
  ⟨fun _ h => parseChunkNum_chunkKeyFromNum h,
   fun _ h => parseChunkNum_chunkKeyFromNum_big h,
   fun _ h => maxChunkNumFold_skip (parseChunkNum_chunkKeyFromNum_big h)⟩

/-- Witness for C10 at concrete inputs `n = 7`, `n = 12`, `n = 10000`. -/
theorem C10_key_naming_roundtrip_witness :
    (7 ≤ 9999 ∧ parseChunkNum (chunkKeyFromNum 7) = some 7) ∧
    (10000 ≤ 10000 ∧ parseChunkNum (chunkKeyFromNum 10000) = none) ∧
    maxChunkNumFold ([chunkKeyFromNum 12] ++ chunkKeyFromNum 10000 :: [chunkKeyFromNum 3]) =
      maxChunkNumFold ([chunkKeyFromNum 12] ++ [chunkKeyFromNum 3]) :=
  ⟨⟨by decide, C10_key_naming_roundtrip.1 7 (by decide)⟩,
   ⟨le_rfl, C10_key_naming_roundtrip.2.1 10000 le_rfl⟩,
   C10_key_naming_roundtrip.2.2 10000 le_rfl [chunkKeyFromNum 12] [chunkKeyFromNum 3]⟩

/-! ## Association-list lemmas for the storage records -/

theorem find_assoc_eq :
    ∀ (l : List (Key × List String)) (k : Key) (v : List String),
      (l.map Prod.fst).Nodup → (k, v) ∈ l →
      l.find? (fun p => p.1 = k) = some (k, v) := by
  intro l
  induction l with
  | nil => intro k v _ h; simp at h
  | cons p t ih =>
    intro k v hnd hmem
    obtain ⟨k1, v1⟩ := p
    rw [List.map_cons, List.nodup_cons] at hnd
    by_cases hk : k1 = k
    · subst hk
      have hv : v1 = v := by
        rcases List.mem_cons.mp hmem with h1 | h2
        · exact (congrArg Prod.snd h1).symm
        · exact absurd (List.mem_map.mpr ⟨(k1, v), h2, rfl⟩) hnd.1
      subst hv
      exact List.find?_cons_of_pos _ (by simp)
    · rw [List.find?_cons_of_neg _ (by simp [hk])]
      have h2 : (k, v) ∈ t := by
        rcases List.mem_cons.mp hmem with h1 | h2
        · exact absurd (congrArg Prod.fst h1).symm hk
        · exact h2
      exact ih k v hnd.2 h2

theorem getRec_eq_of_mem {s : Storage} (hnd : (s.recs.map Prod.fst).Nodup)
    {k : Key} {v : List String} (h : (k, v) ∈ s.recs) : getRec s k = v := by
  rw [getRec, find_assoc_eq s.recs k v hnd h]

theorem setRec_find_self :
    ∀ (l : List (Key × List String)) (k : Key) (v : List String),
      (setRec l k v).find? (fun p => p.1 = k) = some (k, v) := by
  intro l
  induction l with
  | nil => intro k v; exact List.find?_cons_of_pos _ (by simp)
  | cons p t ih =>
    intro k v
    obtain ⟨k1, v1⟩ := p
    rw [setRec]
    by_cases hk : k1 = k
    · rw [if_pos hk]
      exact List.find?_cons_of_pos _ (by simp)
    · rw [if_neg hk, List.find?_cons_of_neg _ (by simp [hk])]
      exact ih k v

theorem setRec_find_ne :
    ∀ (l : List (Key × List String)) (k : Key) (v : List String) (k2 : Key), k2 ≠ k →
      (setRec l k v).find? (fun p => p.1 = k2) = l.find? (fun p => p.1 = k2) := by
  intro l
  induction l with
  | nil =>
    intro k v k2 h
    rw [setRec, List.find?_cons_of_neg _ (by simp [Ne.symm h])]
  | cons p t ih =>
    intro k v k2 h
    obtain ⟨k1, v1⟩ := p
    rw [setRec]
    by_cases hk : k1 = k
    · subst hk
      rw [if_pos rfl, List.find?_cons_of_neg _ (by simp [Ne.symm h]),
        List.find?_cons_of_neg _ (by simp [Ne.symm h])]
    · rw [if_neg hk]
      by_cases hk2 : k1 = k2
      · subst hk2
        rw [List.find?_cons_of_pos _ (by simp), List.find?_cons_of_pos _ (by simp)]
      · rw [List.find?_cons_of_neg _ (by simp [hk2]), List.find?_cons_of_neg _ (by simp [hk2])]
        exact ih k v k2 h

theorem getRec_putRec_self (s : Storage) (k : Key) (v : List String) :
    getRec (putRec s k v) k = v := by
  rw [getRec, putRec]
  simp only
  rw [setRec_find_self]

theorem getRec_putRec_ne (s : Storage) (k : Key) (v : List String) {k2 : Key} (h : k2 ≠ k) :
    getRec (putRec s k v) k2 = getRec s k2 := by
  rw [getRec, getRec, putRec]
  simp only
  rw [setRec_find_ne _ _ _ _ h]

theorem getRec_putIdx (s : Storage) (idx : Index) (k : Key) :
    getRec (putIdx s idx) k = getRec s k := rfl

theorem find_filter_not_dropped :
    ∀ (l : List (Key × List String)) (keys : List Key) (k : Key),
      keys.contains k = false →
      (l.filter (fun p => !(keys.contains p.1))).find? (fun p => p.1 = k) =
        l.find? (fun p => p.1 = k) := by
  intro l keys
  induction l with
  | nil => intro k _; rfl
  | cons p t ih =>
    intro k hk
    obtain ⟨k1, v1⟩ := p
    by_cases h1 : k1 = k
    · subst h1
      have hk1 : k1 ∉ keys := by simpa using hk
      rw [List.filter_cons_of_pos (by simpa using hk1), List.find?_cons_of_pos _ (by simp),
        List.find?_cons_of_pos _ (by simp)]
    · by_cases h2 : keys.contains k1
      · rw [List.filter_cons_of_neg (by simpa using h2), List.find?_cons_of_neg _ (by simp [h1])]
        exact ih k hk
      · have hk1 : k1 ∉ keys := by simpa using h2
        rw [List.filter_cons_of_pos (by simpa using hk1), List.find?_cons_of_neg _ (by simp [h1]),
          List.find?_cons_of_neg _ (by simp [h1])]
        exact ih k hk

theorem getRec_dropRecs (s : Storage) (keys : List Key) {k : Key}
    (h : keys.contains k = false) :
    getRec (dropRecs s keys) k = getRec s k := by
  rw [getRec, getRec, dropRecs]
  simp only
  rw [find_filter_not_dropped _ _ _ h]

/-! ## C6: repair of a missing index -/

/-- The sum of the recomputed per-chunk cardinalities equals the sum of
the stem-matching records' cardinalities. -/
theorem rebuild_total_eq (s : Storage) (hnd : (s.recs.map Prod.fst).Nodup) :
    (rebuildIndexFromChunksM s (discoverChunkKeysM s)).total =
      ((s.recs.filter (fun p => hasStem p.1)).map (fun p => p.2.length)).sum := by
  rw [rebuildIndexFromChunksM]
  simp only
  have hperm : List.Perm (discoverChunkKeysM s) ((s.recs.map Prod.fst).filter hasStem) :=
    List.perm_insertionSort keyLEv _
  have hmap := hperm.map (fun k => (getRec s k).length)
  rw [hmap.sum_eq]
  rw [List.filter_map, List.map_map]
  have hfe : (hasStem ∘ Prod.fst : Key × List String → Bool) = fun p => hasStem p.1 := rfl
  rw [hfe]
  have : ∀ p ∈ s.recs.filter (fun p => hasStem p.1),
      ((fun k => (getRec s k).length) ∘ Prod.fst) p = (fun p => p.2.length) p := by
    intro p hp
    have hm : p ∈ s.recs := List.mem_of_mem_filter hp
    have : getRec s p.1 = p.2 := getRec_eq_of_mem hnd (by rwa [Prod.mk.eta])
    simp [this]
  rw [List.map_congr_left this]

/-- **C6.** If the index record is absent while chunk records remain,
`memGetCount` (via `ensureIndex`) rebuilds the index from a full scan of
the stem-matching chunk records, returns the sum of their
cardinalities, and has already persisted the rebuilt index in the
post-state it returns. -/
theorem C6_missing_index_rebuild (s : Storage)
    (hidx : s.index = none) (hnd : (s.recs.map Prod.fst).Nodup) :
    (memGetCount s).1 = ((s.recs.filter (fun p => hasStem p.1)).map (fun p => p.2.length)).sum ∧
    (memGetCount s).2.index = some (rebuildIndexFromChunksM s (discoverChunkKeysM s)) ∧
    (rebuildIndexFromChunksM s (discoverChunkKeysM s)).total = (memGetCount s).1 := by
  have hB : ensureIndexB s =
      (rebuildIndexFromChunksM s (discoverChunkKeysM s),
        putIdx s (rebuildIndexFromChunksM s (discoverChunkKeysM s))) := by
    rw [ensureIndexB, hidx]
  refine ⟨?_, ?_, ?_⟩
  · rw [memGetCount, hB]
    exact rebuild_total_eq s hnd
  · rw [memGetCount, hB]
    rfl
  · rw [memGetCount, hB]

/-- Witness for C6: two chunk records of sizes 2 and 1 and a stray
record without the naming convention; the rebuilt total is 3. -/
theorem C6_missing_index_rebuild_witness :
    ((⟨none, [(chunkKeyFromNum 0, ["a", "b"]), (['z'], ["x"]), (chunkKeyFromNum 1, ["c"])]⟩ :
        Storage).index = none) ∧
    (memGetCount ⟨none, [(chunkKeyFromNum 0, ["a", "b"]), (['z'], ["x"]),
        (chunkKeyFromNum 1, ["c"])]⟩).1 = 3 := by
  constructor
  · rfl
  · have h := C6_missing_index_rebuild
      ⟨none, [(chunkKeyFromNum 0, ["a", "b"]), (['z'], ["x"]), (chunkKeyFromNum 1, ["c"])]⟩
      rfl (by decide)
    rw [h.1]
    decide

/-! ## Unfolding lemmas for `memAddId` -/

theorem ensureIndexB_some {s : Storage} {idx : Index}
    (h : s.index = some idx) (h0 : idx.chunkSize ≠ 0) :
    ensureIndexB s = (idx, s) := by
  rw [ensureIndexB, h]
  simp only [if_neg h0]

theorem ensureIndexO_some {s : Storage} {idx : Index} (h : s.index = some idx) :
    ensureIndexO s = (idx, s) := by
  rw [ensureIndexO, h]

theorem addToChunk_already {id : String} {idx : Index} {k : Key} {s : Storage}
    (h : (getRec s k).contains id = true) :
    addToChunk id idx k s = (.already idx.total, s) := by
  rw [addToChunk, if_pos h]

theorem addToChunk_new {id : String} {idx : Index} {k : Key} {s : Storage}
    (h : (getRec s k).contains id = false) :
    addToChunk id idx k s =
      (.added (idx.total + 1),
        putIdx (putRec s k (getRec s k ++ [id]))
          { idx with
            counts := setCount idx.counts k ((getCount idx.counts k).getD 0 + 1)
            total := idx.total + 1 }) := by
  rw [addToChunk, if_neg (by simpa using h), objSet, if_neg (by simpa using h)]

/-- `memAddId` when the active chunk is the non-full last chunk. -/
theorem memAddId_active {s : Storage} {idx : Index} {last : Key} {id : String}
    (h : s.index = some idx) (h0 : idx.chunkSize ≠ 0) (hid : id ≠ "")
    (hlast : idx.chunks.getLast? = some last)
    (hcnt : (getCount idx.counts last).getD 0 < idx.chunkSize) :
    memAddId id s = addToChunk id idx last s := by
  rw [memAddId, if_neg hid]
  simp only [ensureIndexB_some h h0, if_neg h0, hlast, if_pos hcnt]

/-- `memAddId` when a fresh chunk must be allocated (no chunk yet, or
the last chunk is full): the new key is `max + 1`, the index is
persisted together with an empty chunk record, and the identifier is
then inserted into that chunk. -/
theorem memAddId_alloc {s : Storage} {idx : Index} {id : String}
    (h : s.index = some idx) (h0 : idx.chunkSize ≠ 0) (hid : id ≠ "")
    (hfull : ∀ last, idx.chunks.getLast? = some last →
      ¬ (getCount idx.counts last).getD 0 < idx.chunkSize) :
    memAddId id s =
      (let activeKey := chunkKeyFromNum (maxChunkNumFold idx.chunks + 1).toNat
       let idx1 : Index :=
         { idx with
           chunks := idx.chunks ++ [activeKey]
           counts := setCount idx.counts activeKey 0 }
       addToChunk id idx1 activeKey (putRec (putIdx s idx1) activeKey [])) := by
  rw [memAddId, if_neg hid]
  simp only [ensureIndexB_some h h0, if_neg h0]
  cases hl : idx.chunks.getLast? with
  | none => rfl
  | some last => simp only [if_neg (hfull last hl)]

/-! ## C1: add of an identifier already present -/

/-- The store used to refute C1: one full chunk (capacity 2) holding
`{"a","b"}`, consistent index. -/
def c1Store : Storage :=
  ⟨some ⟨2, 2, [chunkKeyFromNum 0], [(chunkKeyFromNum 0, 2)], 2⟩,
    [(chunkKeyFromNum 0, ["a", "b"])]⟩

/-- **C1 is false as stated**: `"a"` is already present in (a full,
non-active) chunk of the store, yet `add("a")` is not a no-op — it
reports `added`, increments the total to 3, and afterwards `"a"`
appears in two different chunks. -/
theorem C1_cex_add_duplicates_across_chunks :
    memberOf c1Store "a" = true ∧
    (memAddId "a" c1Store).1 = .added 3 ∧
    (getRec (memAddId "a" c1Store).2 (chunkKeyFromNum 0)).contains "a" = true ∧
    (getRec (memAddId "a" c1Store).2 (chunkKeyFromNum 1)).contains "a" = true ∧
    (chunkKeyFromNum 0 : Key) ≠ chunkKeyFromNum 1 ∧
    (memAddId "a" c1Store).2.index.map Index.chunks =
      some [chunkKeyFromNum 0, chunkKeyFromNum 1] := by
  refine ⟨by decide, by decide, by decide, by decide, by decide, by decide⟩

/-- **C1 (amended).** `add(x)` is a no-op — reporting "already
present" with the unchanged total and leaving the storage untouched —
exactly when `x` is contained in the *active* chunk (the non-full last
chunk of the index); an identifier present only in an earlier chunk is
added again. -/
theorem C1_add_noop_when_in_active_chunk {s : Storage} {idx : Index} {last : Key}
    {id : String}
    (h : s.index = some idx) (h0 : idx.chunkSize ≠ 0) (hid : id ≠ "")
    (hlast : idx.chunks.getLast? = some last)
    (hcnt : (getCount idx.counts last).getD 0 < idx.chunkSize)
    (hmem : (getRec s last).contains id = true) :
    memAddId id s = (.already idx.total, s) := by
  rw [memAddId_active h h0 hid hlast hcnt, addToChunk_already hmem]

/-- Witness for the amended C1: a store whose active chunk holds `"a"`;
`add("a")` returns `already` with total 1 and the unchanged storage. -/
theorem C1_add_noop_when_in_active_chunk_witness :
    ((⟨some ⟨2, 2, [chunkKeyFromNum 0], [(chunkKeyFromNum 0, 1)], 1⟩,
        [(chunkKeyFromNum 0, ["a"])]⟩ : Storage).index =
      some ⟨2, 2, [chunkKeyFromNum 0], [(chunkKeyFromNum 0, 1)], 1⟩) ∧
    memAddId "a" ⟨some ⟨2, 2, [chunkKeyFromNum 0], [(chunkKeyFromNum 0, 1)], 1⟩,
        [(chunkKeyFromNum 0, ["a"])]⟩ =
      (.already 1, ⟨some ⟨2, 2, [chunkKeyFromNum 0], [(chunkKeyFromNum 0, 1)], 1⟩,
        [(chunkKeyFromNum 0, ["a"])]⟩) :=
  ⟨rfl, @C1_add_noop_when_in_active_chunk
    ⟨some ⟨2, 2, [chunkKeyFromNum 0], [(chunkKeyFromNum 0, 1)], 1⟩,
      [(chunkKeyFromNum 0, ["a"])]⟩
    ⟨2, 2, [chunkKeyFromNum 0], [(chunkKeyFromNum 0, 1)], 1⟩
    (chunkKeyFromNum 0) "a" rfl (by decide) (by decide) (by decide) (by decide) (by decide)⟩

/-! ## C2: sequence numbers across `clear()` -/

/-- **C2 is false as stated**: starting from the empty store, `add "a"`
allocates chunk 0000; after `clear()` (which empties the store and
makes `count()` report 0) the next `add "b"` allocates chunk 0000
again — the same sequence number, not a strictly greater one. -/
theorem C2_cex_seq_number_reused_after_clear :
    ((memAddId "a" (⟨none, []⟩ : Storage)).2.index.map Index.chunks =
      some [chunkKeyFromNum 0]) ∧
    (memGetCount (memClearAll (memAddId "a" (⟨none, []⟩ : Storage)).2)).1 = 0 ∧
    ((memAddId "b" (memClearAll (memAddId "a" (⟨none, []⟩ : Storage)).2)).2.index.map
        Index.chunks = some [chunkKeyFromNum 0]) ∧
    ¬ ((0 : Nat) > 0) := by
  refine ⟨by decide, by decide, by decide, by decide⟩

/-- **C2 (amended).** When `add` allocates a chunk, the new sequence
number is `max(parseable sequence numbers in the current index) + 1`,
strictly greater than every sequence number the current index refers
to; but `clear()` removes every chunk record together with the index,
so the allocation base resets and sequence numbers from before the
clear are reused (see the counterexample). -/
theorem C2_alloc_strictly_above_current {s : Storage} {idx : Index} {id : String}
    (h : s.index = some idx) (h0 : idx.chunkSize ≠ 0) (hid : id ≠ "")
    (hfull : ∀ last, idx.chunks.getLast? = some last →
      ¬ (getCount idx.counts last).getD 0 < idx.chunkSize) :
    ∃ idx2 : Index,
      (memAddId id s).2.index = some idx2 ∧
      idx2.chunks = idx.chunks ++ [chunkKeyFromNum (maxChunkNumFold idx.chunks + 1).toNat] ∧
      ∀ k ∈ idx.chunks, ∀ n : Nat, parseChunkNum k = some n →
        n < (maxChunkNumFold idx.chunks + 1).toNat := by
  rw [memAddId_alloc h h0 hid hfull]
  simp only
  set nk := chunkKeyFromNum (maxChunkNumFold idx.chunks + 1).toNat with hnk
  set idx1 : Index :=
    { idx with chunks := idx.chunks ++ [nk], counts := setCount idx.counts nk 0 } with hidx1
  have hget : getRec (putRec (putIdx s idx1) nk []) nk = [] := getRec_putRec_self _ _ _
  rw [addToChunk_new (by rw [hget]; rfl)]
  refine ⟨_, rfl, rfl, ?_⟩
  intro k hk n hp
  have h1 : (n : Int) ≤ maxChunkNumFold idx.chunks := maxChunkNumFold_ge hk hp
  have h2 : -1 ≤ maxChunkNumFold idx.chunks := maxChunkNumFold_ge_neg_one _
  omega

/-- Witness for the amended C2: a store with full chunks 0000 and 0001;
adding allocates 0002, strictly above both. -/
theorem C2_alloc_strictly_above_current_witness :
    ((⟨some ⟨2, 2, [chunkKeyFromNum 0, chunkKeyFromNum 1],
        [(chunkKeyFromNum 0, 2), (chunkKeyFromNum 1, 2)], 4⟩,
      [(chunkKeyFromNum 0, ["a", "b"]), (chunkKeyFromNum 1, ["c", "d"])]⟩ : Storage).index =
        some ⟨2, 2, [chunkKeyFromNum 0, chunkKeyFromNum 1],
          [(chunkKeyFromNum 0, 2), (chunkKeyFromNum 1, 2)], 4⟩) ∧
    (∃ idx2 : Index,
      (memAddId "e" ⟨some ⟨2, 2, [chunkKeyFromNum 0, chunkKeyFromNum 1],
          [(chunkKeyFromNum 0, 2), (chunkKeyFromNum 1, 2)], 4⟩,
        [(chunkKeyFromNum 0, ["a", "b"]), (chunkKeyFromNum 1, ["c", "d"])]⟩).2.index =
          some idx2 ∧
      idx2.chunks = [chunkKeyFromNum 0, chunkKeyFromNum 1] ++
        [chunkKeyFromNum (maxChunkNumFold [chunkKeyFromNum 0, chunkKeyFromNum 1] + 1).toNat] ∧
      ∀ k ∈ [chunkKeyFromNum 0, chunkKeyFromNum 1], ∀ n : Nat, parseChunkNum k = some n →
        n < (maxChunkNumFold [chunkKeyFromNum 0, chunkKeyFromNum 1] + 1).toNat) :=
  ⟨rfl, @C2_alloc_strictly_above_current
    ⟨some ⟨2, 2, [chunkKeyFromNum 0, chunkKeyFromNum 1],
        [(chunkKeyFromNum 0, 2), (chunkKeyFromNum 1, 2)], 4⟩,
      [(chunkKeyFromNum 0, ["a", "b"]), (chunkKeyFromNum 1, ["c", "d"])]⟩
    ⟨2, 2, [chunkKeyFromNum 0, chunkKeyFromNum 1],
      [(chunkKeyFromNum 0, 2), (chunkKeyFromNum 1, 2)], 4⟩
    "e" rfl (by decide) (by decide)
    (by
      intro last hl
      simp only [List.getLast?_cons_cons, List.getLast?_singleton, Option.some.injEq] at hl
      subst hl
      decide)⟩

/-! ## C8: sharding boundary with `chunkSize = 2` -/

/-- Sequentially add a list of identifiers. -/
def addSeq (ids : List String) (s : Storage) : Storage :=
  ids.foldl (fun st i => (memAddId i st).2) s

/-- The empty store whose (pre-existing) index declares `chunkSize = 2`. -/
def chunk2Empty : Storage := ⟨some ⟨2, 2, [], [], 0⟩, []⟩


/-- **C8.** Starting from an empty store with `chunkSize = 2`, adding 5
distinct non-empty identifiers in sequence produces exactly 3 chunks
whose per-chunk cardinalities, in index order, are `[2, 2, 1]` — both
as recorded in the index `counts` and as stored in the chunk records —
and leaves `total = 5`. -/
theorem C8_five_adds_chunk_counts (a b c d e : String)
    (ha : a ≠ "") (hb : b ≠ "") (hc : c ≠ "") (hd : d ≠ "") (he : e ≠ "")
    (hnd : ([a, b, c, d, e] : List String).Nodup) :
    ∃ idx : Index,
      (addSeq [a, b, c, d, e] chunk2Empty).index = some idx ∧
      idx.chunks = [chunkKeyFromNum 0, chunkKeyFromNum 1, chunkKeyFromNum 2] ∧
      idx.chunks.map (fun k => (getCount idx.counts k).getD 0) = [2, 2, 1] ∧
      idx.chunks.map (fun k => (getRec (addSeq [a, b, c, d, e] chunk2Empty) k).length) =
        [2, 2, 1] ∧
      idx.total = 5 := by
  have hba : ¬ b = a := by simp at hnd; tauto
  have hdc : ¬ d = c := by simp at hnd; tauto
  have hne01 : ¬ (chunkKeyFromNum 0 : Key) = chunkKeyFromNum 1 := by decide
  have hne02 : ¬ (chunkKeyFromNum 0 : Key) = chunkKeyFromNum 2 := by decide
  have hne12 : ¬ (chunkKeyFromNum 1 : Key) = chunkKeyFromNum 2 := by decide
  have h1 : memAddId a (⟨some ⟨2, 2, [], [], 0⟩, []⟩ : Storage) =
      (.added 1, ⟨some ⟨2, 2, [chunkKeyFromNum 0],
        [(chunkKeyFromNum 0, 1), (chunkKeyFromNum 0, 0)], 1⟩,
        [(chunkKeyFromNum 0, [a])]⟩) := by
    rw [@memAddId_alloc ⟨some ⟨2, 2, [], [], 0⟩, []⟩ ⟨2, 2, [], [], 0⟩ a rfl (by decide) ha
      (by intro last hl; simp at hl)]
    have hA : (maxChunkNumFold ([] : List Key) + 1).toNat = 0 := by decide
    simp only [hA]
    rw [addToChunk_new (by rw [getRec_putRec_self]; rfl)]
    rw [getRec_putRec_self]
    simp [putRec, putIdx, setRec, setCount, getCount, objSet]
  have hg1 : getRec ⟨some ⟨2, 2, [chunkKeyFromNum 0],
      [(chunkKeyFromNum 0, 1), (chunkKeyFromNum 0, 0)], 1⟩,
      [(chunkKeyFromNum 0, [a])]⟩ (chunkKeyFromNum 0) = [a] := by
    rw [getRec, List.find?_cons_of_pos _ (by simp)]
  have h2 : memAddId b (⟨some ⟨2, 2, [chunkKeyFromNum 0],
        [(chunkKeyFromNum 0, 1), (chunkKeyFromNum 0, 0)], 1⟩,
        [(chunkKeyFromNum 0, [a])]⟩ : Storage) =
      (.added 2, ⟨some ⟨2, 2, [chunkKeyFromNum 0],
        [(chunkKeyFromNum 0, 2), (chunkKeyFromNum 0, 1), (chunkKeyFromNum 0, 0)], 2⟩,
        [(chunkKeyFromNum 0, [a, b])]⟩) := by
    rw [@memAddId_active _ ⟨2, 2, [chunkKeyFromNum 0],
        [(chunkKeyFromNum 0, 1), (chunkKeyFromNum 0, 0)], 1⟩ (chunkKeyFromNum 0) b
      rfl (by decide) hb (by decide) (by decide)]
    rw [addToChunk_new (by rw [hg1]; simp [hba])]
    rw [hg1]
    simp [putRec, putIdx, setRec, setCount, getCount]
  have h3 : memAddId c (⟨some ⟨2, 2, [chunkKeyFromNum 0],
        [(chunkKeyFromNum 0, 2), (chunkKeyFromNum 0, 1), (chunkKeyFromNum 0, 0)], 2⟩,
        [(chunkKeyFromNum 0, [a, b])]⟩ : Storage) =
      (.added 3, ⟨some ⟨2, 2, [chunkKeyFromNum 0, chunkKeyFromNum 1],
        [(chunkKeyFromNum 1, 1), (chunkKeyFromNum 1, 0), (chunkKeyFromNum 0, 2),
         (chunkKeyFromNum 0, 1), (chunkKeyFromNum 0, 0)], 3⟩,
        [(chunkKeyFromNum 0, [a, b]), (chunkKeyFromNum 1, [c])]⟩) := by
    rw [@memAddId_alloc _ ⟨2, 2, [chunkKeyFromNum 0],
        [(chunkKeyFromNum 0, 2), (chunkKeyFromNum 0, 1), (chunkKeyFromNum 0, 0)], 2⟩ c
      rfl (by decide) hc
      (by
        intro last hl
        simp only [List.getLast?_singleton, Option.some.injEq] at hl
        subst hl
        decide)]
    have hB : (maxChunkNumFold [chunkKeyFromNum 0] + 1).toNat = 1 := by decide
    simp only [hB]
    rw [addToChunk_new (by rw [getRec_putRec_self]; rfl)]
    rw [getRec_putRec_self]
    simp [putRec, putIdx, setRec, setCount, getCount, objSet, hne01, Ne.symm hne01]
  have hg3 : getRec ⟨some ⟨2, 2, [chunkKeyFromNum 0, chunkKeyFromNum 1],
      [(chunkKeyFromNum 1, 1), (chunkKeyFromNum 1, 0), (chunkKeyFromNum 0, 2),
       (chunkKeyFromNum 0, 1), (chunkKeyFromNum 0, 0)], 3⟩,
      [(chunkKeyFromNum 0, [a, b]), (chunkKeyFromNum 1, [c])]⟩ (chunkKeyFromNum 1) = [c] := by
    rw [getRec, List.find?_cons_of_neg _ (by simp [hne01]),
      List.find?_cons_of_pos _ (by simp)]
  have h4 : memAddId d (⟨some ⟨2, 2, [chunkKeyFromNum 0, chunkKeyFromNum 1],
        [(chunkKeyFromNum 1, 1), (chunkKeyFromNum 1, 0), (chunkKeyFromNum 0, 2),
         (chunkKeyFromNum 0, 1), (chunkKeyFromNum 0, 0)], 3⟩,
        [(chunkKeyFromNum 0, [a, b]), (chunkKeyFromNum 1, [c])]⟩ : Storage) =
      (.added 4, ⟨some ⟨2, 2, [chunkKeyFromNum 0, chunkKeyFromNum 1],
        [(chunkKeyFromNum 1, 2), (chunkKeyFromNum 1, 1), (chunkKeyFromNum 1, 0),
         (chunkKeyFromNum 0, 2), (chunkKeyFromNum 0, 1), (chunkKeyFromNum 0, 0)], 4⟩,
        [(chunkKeyFromNum 0, [a, b]), (chunkKeyFromNum 1, [c, d])]⟩) := by
    rw [@memAddId_active _ ⟨2, 2, [chunkKeyFromNum 0, chunkKeyFromNum 1],
        [(chunkKeyFromNum 1, 1), (chunkKeyFromNum 1, 0), (chunkKeyFromNum 0, 2),
         (chunkKeyFromNum 0, 1), (chunkKeyFromNum 0, 0)], 3⟩ (chunkKeyFromNum 1) d
      rfl (by decide) hd (by decide) (by decide)]
    rw [addToChunk_new (by rw [hg3]; simp [hdc])]
    rw [hg3]
    simp [putRec, putIdx, setRec, setCount, getCount, hne01, Ne.symm hne01]
  have h5 : memAddId e (⟨some ⟨2, 2, [chunkKeyFromNum 0, chunkKeyFromNum 1],
        [(chunkKeyFromNum 1, 2), (chunkKeyFromNum 1, 1), (chunkKeyFromNum 1, 0),
         (chunkKeyFromNum 0, 2), (chunkKeyFromNum 0, 1), (chunkKeyFromNum 0, 0)], 4⟩,
        [(chunkKeyFromNum 0, [a, b]), (chunkKeyFromNum 1, [c, d])]⟩ : Storage) =
      (.added 5, ⟨some ⟨2, 2, [chunkKeyFromNum 0, chunkKeyFromNum 1, chunkKeyFromNum 2],
        [(chunkKeyFromNum 2, 1), (chunkKeyFromNum 2, 0), (chunkKeyFromNum 1, 2),
         (chunkKeyFromNum 1, 1), (chunkKeyFromNum 1, 0), (chunkKeyFromNum 0, 2),
         (chunkKeyFromNum 0, 1), (chunkKeyFromNum 0, 0)], 5⟩,
        [(chunkKeyFromNum 0, [a, b]), (chunkKeyFromNum 1, [c, d]),
         (chunkKeyFromNum 2, [e])]⟩) := by
    rw [@memAddId_alloc _ ⟨2, 2, [chunkKeyFromNum 0, chunkKeyFromNum 1],
        [(chunkKeyFromNum 1, 2), (chunkKeyFromNum 1, 1), (chunkKeyFromNum 1, 0),
         (chunkKeyFromNum 0, 2), (chunkKeyFromNum 0, 1), (chunkKeyFromNum 0, 0)], 4⟩ e
      rfl (by decide) he
      (by
        intro last hl
        simp only [List.getLast?_cons_cons, List.getLast?_singleton, Option.some.injEq] at hl
        subst hl
        decide)]
    have hC : (maxChunkNumFold [chunkKeyFromNum 0, chunkKeyFromNum 1] + 1).toNat = 2 := by
      decide
    simp only [hC]
    rw [addToChunk_new (by rw [getRec_putRec_self]; rfl)]
    rw [getRec_putRec_self]
    simp [putRec, putIdx, setRec, setCount, getCount, objSet,
      hne01, hne02, hne12, Ne.symm hne01, Ne.symm hne02, Ne.symm hne12]
  have hrun : addSeq [a, b, c, d, e] chunk2Empty =
      ⟨some ⟨2, 2, [chunkKeyFromNum 0, chunkKeyFromNum 1, chunkKeyFromNum 2],
        [(chunkKeyFromNum 2, 1), (chunkKeyFromNum 2, 0), (chunkKeyFromNum 1, 2),
         (chunkKeyFromNum 1, 1), (chunkKeyFromNum 1, 0), (chunkKeyFromNum 0, 2),
         (chunkKeyFromNum 0, 1), (chunkKeyFromNum 0, 0)], 5⟩,
        [(chunkKeyFromNum 0, [a, b]), (chunkKeyFromNum 1, [c, d]),
         (chunkKeyFromNum 2, [e])]⟩ := by
    rw [addSeq, List.foldl_cons, chunk2Empty, h1]
    rw [List.foldl_cons, h2, List.foldl_cons, h3, List.foldl_cons, h4, List.foldl_cons, h5]
    rfl
  refine ⟨_, by rw [hrun], rfl, by decide, ?_, rfl⟩
  rw [hrun]
  simp only [List.map_cons, List.map_nil]
  rw [getRec, List.find?_cons_of_pos _ (by simp)]
  rw [getRec, List.find?_cons_of_neg _ (by simp [hne01]), List.find?_cons_of_pos _ (by simp)]
  rw [getRec, List.find?_cons_of_neg _ (by simp [hne02]),
    List.find?_cons_of_neg _ (by simp [hne12]), List.find?_cons_of_pos _ (by simp)]
  rfl

/-- Witness for C8 with the concrete identifiers `"a"`–`"e"`. -/
theorem C8_five_adds_chunk_counts_witness :
    (("a" : String) ≠ "" ∧ ("b" : String) ≠ "" ∧ ("c" : String) ≠ "" ∧
      ("d" : String) ≠ "" ∧ ("e" : String) ≠ "" ∧
      (["a", "b", "c", "d", "e"] : List String).Nodup) ∧
    (∃ idx : Index,
      (addSeq ["a", "b", "c", "d", "e"] chunk2Empty).index = some idx ∧
      idx.chunks = [chunkKeyFromNum 0, chunkKeyFromNum 1, chunkKeyFromNum 2] ∧
      idx.chunks.map (fun k => (getCount idx.counts k).getD 0) = [2, 2, 1] ∧
      idx.chunks.map
        (fun k => (getRec (addSeq ["a", "b", "c", "d", "e"] chunk2Empty) k).length) =
        [2, 2, 1] ∧
      idx.total = 5) :=
  ⟨⟨by decide, by decide, by decide, by decide, by decide, by decide⟩,
    C8_five_adds_chunk_counts "a" "b" "c" "d" "e"
      (by decide) (by decide) (by decide) (by decide) (by decide) (by decide)⟩

/-! ## C9: import payload validation -/

/-- Inversion for `normalizeImportedIds`. -/
theorem normalizeImportedIds_eq_some {v : JsonVal} {ids : List JsonVal} :
    normalizeImportedIds v = some ids ↔
      v = .arr ids ∨ ∃ fields, v = .obj fields ∧ jsField fields "ids" = some (.arr ids) := by
  constructor
  · intro h
    cases v with
    | arr xs =>
      left
      rw [normalizeImportedIds] at h
      exact congrArg JsonVal.arr (Option.some.inj h)
    | obj fields =>
      right
      refine ⟨fields, rfl, ?_⟩
      rw [normalizeImportedIds] at h
      cases hj : jsField fields "ids" with
      | none => rw [hj] at h; exact absurd h (by simp)
      | some w =>
        rw [hj] at h
        cases w with
        | arr xs => rw [← Option.some.inj h]
        | null => exact absurd h (by simp)
        | bool q => exact absurd h (by simp)
        | num q => exact absurd h (by simp)
        | str q => exact absurd h (by simp)
        | obj q => exact absurd h (by simp)
    | null => exact absurd h (by simp [normalizeImportedIds])
    | bool q => exact absurd h (by simp [normalizeImportedIds])
    | num q => exact absurd h (by simp [normalizeImportedIds])
    | str q => exact absurd h (by simp [normalizeImportedIds])
  · intro h
    rcases h with rfl | ⟨fields, rfl, hj⟩
    · rfl
    · rw [normalizeImportedIds, hj]

/-- **C9 is false as stated**: the payload `[42]` — a bare array that
is *not* an array of strings (and not an object carrying an `ids`
array) — is accepted by the validator rather than rejected; its
non-string members are silently dropped later. -/
theorem C9_cex_nonstring_array_accepted :
    readAndValidateFile (some (.arr [.num 42])) = .ok [.num 42] ∧
    (∀ s : String, (JsonVal.num 42) ≠ .str s) ∧
    (¬ ∃ e, readAndValidateFile (some (.arr [.num 42])) = .error e) :=
  ⟨rfl, fun _ h => JsonVal.noConfusion h,
    fun ⟨_, h⟩ => by rw [(rfl : readAndValidateFile (some (.arr [.num 42])) = .ok [.num 42])] at h; exact Except.noConfusion h⟩

/-- **C9 (amended).** A payload is accepted exactly when the parsed
JSON is a bare array (of arbitrary JSON values, not only strings) or
an object carrying an `ids` array, with at most 5,000,000 entries;
unparsable JSON, any other shape, and oversized `ids` arrays are
rejected with a typed error, and on every rejection the store is left
unchanged. -/
theorem C9_payload_validation (p : Option JsonVal) (mergeMode : Bool) (s : Storage) :
    ((∃ ids, readAndValidateFile p = .ok ids) ↔
      (∃ xs : List JsonVal,
        (p = some (.arr xs) ∨
          ∃ fields, p = some (.obj fields) ∧ jsField fields "ids" = some (.arr xs)) ∧
        xs.length ≤ 5000000)) ∧
    (∀ e, readAndValidateFile p = .error e → importFlowState p mergeMode s = s) := by
  constructor
  · cases p with
    | none =>
      simp only [readAndValidateFile]
      constructor
      · rintro ⟨ids, h⟩; exact absurd h (by simp)
      · rintro ⟨xs, h, -⟩
        rcases h with h | ⟨fields, h, -⟩ <;> exact Option.noConfusion h
    | some v =>
      cases hn : normalizeImportedIds v with
      | none =>
        have hred : readAndValidateFile (some v) = .error .badShape := by
          rw [readAndValidateFile, hn]
        constructor
        · rintro ⟨ids, h⟩
          rw [hred] at h
          exact Except.noConfusion h
        · rintro ⟨xs, h, -⟩
          have : normalizeImportedIds v = some xs := by
            apply normalizeImportedIds_eq_some.mpr
            rcases h with h | ⟨fields, h, hj⟩
            · exact Or.inl (Option.some.inj h)
            · exact Or.inr ⟨fields, Option.some.inj h, hj⟩
          rw [hn] at this
          exact Option.noConfusion this
      | some ids =>
        have hred : readAndValidateFile (some v) =
            if ids.length > 5000000 then .error .tooLarge else .ok ids := by
          rw [readAndValidateFile, hn]
        rw [hred]
        by_cases hlen : ids.length > 5000000
        · rw [if_pos hlen]
          constructor
          · rintro ⟨ids2, h⟩; exact absurd h (by simp)
          · rintro ⟨xs, h, hle⟩
            have : normalizeImportedIds v = some xs := by
              apply normalizeImportedIds_eq_some.mpr
              rcases h with h | ⟨fields, h, hj⟩
              · exact Or.inl (Option.some.inj h)
              · exact Or.inr ⟨fields, Option.some.inj h, hj⟩
            rw [hn] at this
            rw [← Option.some.inj this] at hle
            omega
        · rw [if_neg hlen]
          constructor
          · rintro ⟨ids2, -⟩
            refine ⟨ids, ?_, by omega⟩
            rcases normalizeImportedIds_eq_some.mp hn with h | ⟨fields, h, hj⟩
            · exact Or.inl (by rw [h])
            · exact Or.inr ⟨fields, by rw [h], hj⟩
          · intro _; exact ⟨ids, rfl⟩
  · intro e he
    rw [importFlowState, importFlow, he]

/-- Witness for C9: unparsable JSON is rejected with the typed
`invalidJson` error and the (empty) store is left unchanged. -/
theorem C9_payload_validation_witness :
    readAndValidateFile none = .error .invalidJson ∧
    importFlowState none false ⟨none, []⟩ = ⟨none, []⟩ :=
  ⟨rfl, (C9_payload_validation none false ⟨none, []⟩).2 .invalidJson rfl⟩

/-! ## C7: the mutation serializer

`withMemLock(fn)` chains `fn` onto the shared promise with
`memMutex = memMutex.then(fn, fn)` — the same function is installed as
both the fulfillment and the rejection handler.  A queued operation is
modelled as a state transformer that either fulfills or rejects,
leaving the storage it produced; the promise accumulated after a batch
of submissions is the fold of `then(fn, fn)` over the batch. -/

/-- Outcome of one queued operation: the promise fulfills or rejects,
in either case leaving the storage the operation produced. -/
inductive POut where
  | ok (s : Storage)
  | err (s : Storage)

/-- The storage left behind regardless of the outcome. -/
def stOf : POut → Storage
  | .ok s => s
  | .err s => s

/-- A queued operation. -/
def OpFn := Storage → POut

/-- `p.then(fn, fn)`: run `fn` after `p` settles, fulfilled or
rejected. -/
def thenBoth (p : Storage → POut) (fn : OpFn) : Storage → POut :=
  fun s =>
    match p s with
    | .ok s1 => fn s1
    | .err s1 => fn s1

/-- The value of `memMutex` after submitting `ops` (in order) through
`withMemLock`, starting from the initially resolved promise. -/
def chainAll (ops : List OpFn) : Storage → POut :=
  ops.foldl thenBoth (fun s => .ok s)

/-- Reference semantics: run every operation exactly once, strictly in
submission order, each starting from the previous one's post-state. -/
def seqAll (ops : List OpFn) (s : Storage) : Storage :=
  ops.foldl (fun st op => stOf (op st)) s

/-- The three background messages routed through `withMemLock`. -/
inductive BgMsg where
  | addId (id : String)
  | getCount
  | clearAll

/-- The queued operation each background message performs (all of them
fulfil their promise). -/
def mkBgOp : BgMsg → OpFn
  | .addId id => fun s => .ok (memAddId id s).2
  | .getCount => fun s => .ok (memGetCount s).2
  | .clearAll => fun s => .ok (memClearAll s)

theorem chainAll_append (ops : List OpFn) (op : OpFn) :
    chainAll (ops ++ [op]) = thenBoth (chainAll ops) op := by
  rw [chainAll, chainAll, List.foldl_append, List.foldl_cons, List.foldl_nil]

theorem stOf_thenBoth (p : Storage → POut) (fn : OpFn) (s : Storage) :
    stOf (thenBoth p fn s) = stOf (fn (stOf (p s))) := by
  rw [thenBoth]
  cases p s <;> rfl

/-- Generalised chain/fold equivalence. -/
theorem foldl_thenBoth_eq (ops : List OpFn) :
    ∀ (g : Storage → POut) (s : Storage),
      stOf ((ops.foldl thenBoth g) s) = seqAll ops (stOf (g s)) := by
  induction ops with
  | nil => intro g s; rfl
  | cons op t ih =>
    intro g s
    rw [List.foldl_cons, ih, stOf_thenBoth]
    rfl

/-- **C7 (amended).** All operations submitted through `withMemLock`
within one runtime instance — in particular the background messages
`MEM_ADD_ID`, `MEM_GET_COUNT`, `MEM_CLEAR` — execute strictly
one-at-a-time in first-submitted-first-executed order: the promise
chain built by `then(fn, fn)` leaves exactly the storage of the
sequential execution, and a rejection of one operation never prevents
a later queued operation from running.  (The options-page import
operations do not pass through this queue; see the counterexample.) -/
theorem C7_memLock_chain_serializes :
    (∀ (ops : List OpFn) (s : Storage), stOf (chainAll ops s) = seqAll ops s) ∧
    (∀ (msgs : List BgMsg) (s : Storage),
      stOf (chainAll (msgs.map mkBgOp) s) = seqAll (msgs.map mkBgOp) s) :=
  ⟨fun ops s => foldl_thenBoth_eq ops _ s,
   fun msgs s => foldl_thenBoth_eq (msgs.map mkBgOp) _ s⟩

/-- The interleaved execution refuting C7: in the options page, import
`A` (`importMerge ["a"]`) runs up to its first `await` (capturing the
index via `ensureIndex`), then import `B` (`importMerge ["b"]`) runs
to completion, then `A`'s tail runs with its stale captured index. -/
def c7Interleaved : Storage :=
  let p := ensureIndexO ⟨none, []⟩
  let sB := (importIdsFromList [.str "b"] true p.2).2
  (importPhase2 ["a"] true p.1 sB).2

/-- **C7 is false as stated**: the two import operations are
store-mutating operations of one runtime instance, yet nothing funnels
them through an execution queue — their awaited phases can interleave,
and the interleaving loses the update `"b"`: the result differs from
both serial orders (which both contain `"a"` and `"b"` with total 2). -/
theorem C7_cex_imports_interleave :
    memberOf c7Interleaved "b" = false ∧
    (memGetCount c7Interleaved).1 = 1 ∧
    (let sAB := (importIdsFromList [.str "b"] true
        (importIdsFromList [.str "a"] true ⟨none, []⟩).2).2
     memberOf sAB "a" = true ∧ memberOf sAB "b" = true ∧ (memGetCount sAB).1 = 2) ∧
    (let sBA := (importIdsFromList [.str "a"] true
        (importIdsFromList [.str "b"] true ⟨none, []⟩).2).2
     memberOf sBA "a" = true ∧ memberOf sBA "b" = true ∧ (memGetCount sBA).1 = 2) := by
  refine ⟨by decide, by decide, ⟨by decide, by decide, by decide⟩,
    ⟨by decide, by decide, by decide⟩⟩

/-! ## The packing loop: general characterisation -/

/-- The chunk keys allocated for `m` consecutive sequence numbers
starting at `c`. -/
def rangeKeys (c m : Nat) : List Key :=
  (List.range m).map (fun i => chunkKeyFromNum (c + i))

theorem rangeKeys_zero (c : Nat) : rangeKeys c 0 = [] := rfl

theorem rangeKeys_succ_front (c m : Nat) :
    rangeKeys c (m + 1) = chunkKeyFromNum c :: rangeKeys (c + 1) m := by
  rw [rangeKeys, List.range_succ_eq_map, List.map_cons, List.map_map]
  refine congrArg₂ _ (by rw [Nat.add_zero]) ?_
  rw [rangeKeys]
  apply List.map_congr_left
  intro i _
  simp only [Function.comp]
  congr 1
  omega

theorem rangeKeys_succ_back (c m : Nat) :
    rangeKeys c (m + 1) = rangeKeys c m ++ [chunkKeyFromNum (c + m)] := by
  rw [rangeKeys, rangeKeys, List.range_succ, List.map_append, List.map_cons, List.map_nil]

theorem mem_rangeKeys {c m : Nat} {k : Key} :
    k ∈ rangeKeys c m ↔ ∃ i, i < m ∧ k = chunkKeyFromNum (c + i) := by
  rw [rangeKeys]
  constructor
  · intro h
    rcases List.mem_map.mp h with ⟨i, hi, rfl⟩
    exact ⟨i, List.mem_range.mp hi, rfl⟩
  · rintro ⟨i, hi, rfl⟩
    exact List.mem_map.mpr ⟨i, List.mem_range.mpr hi, rfl⟩

/-- Everything a single `flush()` does, given the counter/alignment
invariants. -/
theorem flushP_props (st : PackSt)
    (hc : st.curCount = st.cur.length)
    (halign : st.newCounts = st.newChunks.map (fun k => (k, (getRec st.s k).length)))
    (hfresh : ∀ k ∈ st.newChunks, ∃ j, j < st.chunkNum ∧ k = chunkKeyFromNum j) :
    (flushP st).newChunks = st.newChunks ++ [chunkKeyFromNum st.chunkNum] ∧
    (flushP st).newCounts =
      (flushP st).newChunks.map (fun k => (k, (getRec (flushP st).s k).length)) ∧
    (∀ k ∈ (flushP st).newChunks, ∃ j, j < (flushP st).chunkNum ∧ k = chunkKeyFromNum j) ∧
    ((flushP st).newChunks.map (fun k => getRec (flushP st).s k)).flatten =
      (st.newChunks.map (fun k => getRec st.s k)).flatten ++ st.cur ∧
    (flushP st).chunkNum = st.chunkNum + 1 ∧
    (flushP st).cur = [] ∧ (flushP st).curCount = 0 ∧
    (flushP st).total = st.total ∧ (flushP st).s.index = st.s.index ∧
    (∀ k, k ≠ chunkKeyFromNum st.chunkNum → getRec (flushP st).s k = getRec st.s k) := by
  have hne : ∀ k ∈ st.newChunks, k ≠ chunkKeyFromNum st.chunkNum := by
    intro k hk
    rcases hfresh k hk with ⟨j, hj, rfl⟩
    intro h
    exact absurd (chunkKeyFromNum_inj h) (by omega)
  simp only [flushP]
  have hmap : st.newChunks.map
        (fun k => getRec (putRec st.s (chunkKeyFromNum st.chunkNum) st.cur) k) =
      st.newChunks.map (fun k => getRec st.s k) := by
    apply List.map_congr_left
    intro k hk
    exact getRec_putRec_ne _ _ _ (hne k hk)
  have hself : getRec (putRec st.s (chunkKeyFromNum st.chunkNum) st.cur)
      (chunkKeyFromNum st.chunkNum) = st.cur :=
    getRec_putRec_self _ _ _
  refine ⟨trivial, ?_, ?_, ?_, trivial, trivial, trivial, trivial, rfl, ?_⟩
  · rw [halign, List.map_append, List.map_cons, List.map_nil, hself, ← hc]
    congr 1
    apply List.map_congr_left
    intro k hk
    rw [getRec_putRec_ne _ _ _ (hne k hk)]
  · intro k hk
    rcases List.mem_append.mp hk with h | h
    · rcases hfresh k h with ⟨j, hj, rfl⟩
      exact ⟨j, by omega, rfl⟩
    · rw [List.mem_singleton.mp h]
      exact ⟨st.chunkNum, by omega, rfl⟩
  · rw [List.map_append, List.flatten_append, hmap, List.map_cons, List.map_nil, hself]
    simp
  · intro k hk
    exact getRec_putRec_ne _ _ _ hk

/-- Relation between the state before and after folding the packing
loop body over `ids`. -/
structure PackRel (st F : PackSt) (ids : List String) : Prop where
  inv_count : F.curCount = F.cur.length
  inv_lt : F.cur.length < DL_CHUNK_SIZE
  total_eq : F.total = st.total + ids.length
  chunkNum_eq : F.chunkNum = st.chunkNum + (st.cur.length + ids.length) / DL_CHUNK_SIZE
  cur_len : F.cur.length = (st.cur.length + ids.length) % DL_CHUNK_SIZE
  chunks_eq : F.newChunks = st.newChunks ++ rangeKeys st.chunkNum (F.chunkNum - st.chunkNum)
  align : F.newCounts = F.newChunks.map (fun k => (k, (getRec F.s k).length))
  fresh : ∀ k ∈ F.newChunks, ∃ j, j < F.chunkNum ∧ k = chunkKeyFromNum j
  flat : (F.newChunks.map (fun k => getRec F.s k)).flatten ++ F.cur =
      (st.newChunks.map (fun k => getRec st.s k)).flatten ++ st.cur ++ ids
  frame : ∀ k, (∀ j, st.chunkNum ≤ j → k ≠ chunkKeyFromNum j) → getRec F.s k = getRec st.s k
  idx_eq : F.s.index = st.s.index

theorem DL_CHUNK_SIZE_pos : 0 < DL_CHUNK_SIZE := by decide

/-- The state after storing one identifier in the current chunk,
before the capacity check. -/
def fillOne (st : PackSt) (x : String) : PackSt :=
  { st with cur := st.cur ++ [x], curCount := st.curCount + 1, total := st.total + 1 }

/-- Main characterisation of the packing loop body folded over the
(deduplicated) identifier list. -/
theorem packFold_spec (ids : List String) :
    ∀ (st : PackSt),
      st.curCount = st.cur.length →
      st.cur.length < DL_CHUNK_SIZE →
      (st.cur ++ ids).Nodup →
      st.newCounts = st.newChunks.map (fun k => (k, (getRec st.s k).length)) →
      (∀ k ∈ st.newChunks, ∃ j, j < st.chunkNum ∧ k = chunkKeyFromNum j) →
      PackRel st (ids.foldl packStep st) ids := by
  induction ids with
  | nil =>
    intro st h1 h2 h3 h4 h5
    rw [List.foldl_nil]
    exact {
      inv_count := h1
      inv_lt := h2
      total_eq := by simp
      chunkNum_eq := by rw [List.length_nil, Nat.add_zero, Nat.div_eq_of_lt h2, Nat.add_zero]
      cur_len := by rw [List.length_nil, Nat.add_zero, Nat.mod_eq_of_lt h2]
      chunks_eq := by rw [Nat.sub_self, rangeKeys_zero, List.append_nil]
      align := h4
      fresh := h5
      flat := by rw [List.append_nil]
      frame := fun k _ => rfl
      idx_eq := rfl }
  | cons x xs ih =>
    intro st h1 h2 h3 h4 h5
    rw [List.foldl_cons]
    have hx : x ∉ st.cur := by
      rcases List.nodup_append.mp h3 with ⟨-, -, hdis⟩
      intro hmem
      exact hdis hmem (List.mem_cons_self x xs)
    have hobj : objSet st.cur x = st.cur ++ [x] := by
      rw [objSet, if_neg (by simpa using hx)]
    have hxs : xs.Nodup := ((List.nodup_append.mp h3).2.1).of_cons
    have hf1c : (fillOne st x).curCount = (fillOne st x).cur.length := by
      rw [fillOne]
      simp [h1]
    by_cases hfl : DL_CHUNK_SIZE ≤ st.curCount + 1
    · -- the chunk fills: flush, then recurse from a fresh chunk
      have hexact : st.curCount + 1 = DL_CHUNK_SIZE := by omega
      have hps : packStep st x = flushP (fillOne st x) := by
        rw [packStep, if_pos hfl, hobj]
        rfl
      rw [hps]
      obtain ⟨f1, f2, f3, f4, f5, f6, f7, f8, f9, f10⟩ :=
        flushP_props (fillOne st x) hf1c h4 h5
      have R := ih (flushP (fillOne st x))
        (by rw [f6, f7]; rfl)
        (by rw [f6]; exact DL_CHUNK_SIZE_pos)
        (by rw [f6]; simpa using hxs)
        f2 f3
      have echunk : (fillOne st x).chunkNum = st.chunkNum := rfl
      have ecur : (fillOne st x).cur = st.cur ++ [x] := rfl
      have etot : (fillOne st x).total = st.total + 1 := rfl
      have echunks : (fillOne st x).newChunks = st.newChunks := rfl
      refine {
        inv_count := R.inv_count
        inv_lt := R.inv_lt
        total_eq := ?_
        chunkNum_eq := ?_
        cur_len := ?_
        chunks_eq := ?_
        align := R.align
        fresh := R.fresh
        flat := ?_
        frame := ?_
        idx_eq := ?_ }
      · rw [R.total_eq, f8, etot]
        simp only [List.length_cons]
        omega
      · rw [R.chunkNum_eq, f5, f6, echunk]
        simp only [List.length_nil, List.length_cons, Nat.zero_add]
        have hs : st.cur.length + (xs.length + 1) = xs.length + DL_CHUNK_SIZE := by omega
        rw [hs, Nat.add_div_right _ DL_CHUNK_SIZE_pos]
        generalize xs.length / DL_CHUNK_SIZE = q
        omega
      · rw [R.cur_len, f6]
        simp only [List.length_nil, List.length_cons, Nat.zero_add]
        have hs : st.cur.length + (xs.length + 1) = xs.length + DL_CHUNK_SIZE := by omega
        rw [hs, Nat.add_mod_right]
      · rw [R.chunks_eq, f1, f5, echunk, echunks]
        have hge : st.chunkNum + 1 ≤ (xs.foldl packStep (flushP (fillOne st x))).chunkNum := by
          rw [R.chunkNum_eq, f5, echunk]
          exact Nat.le_add_right _ _
        have hm : (xs.foldl packStep (flushP (fillOne st x))).chunkNum - st.chunkNum =
            ((xs.foldl packStep (flushP (fillOne st x))).chunkNum - (st.chunkNum + 1)) + 1 := by
          omega
        rw [hm, rangeKeys_succ_front]
        rw [List.append_assoc]
        rfl
      · have es : (fillOne st x).s = st.s := rfl
        rw [R.flat, f4, f6, ecur, echunks, es]
        simp
      · intro k hk
        have hstep : getRec (flushP (fillOne st x)).s k = getRec (fillOne st x).s k :=
          f10 k (by rw [echunk]; exact hk st.chunkNum le_rfl)
        have er : getRec (fillOne st x).s k = getRec st.s k := rfl
        rw [R.frame k (fun j hj => hk j (by rw [f5, echunk] at hj; omega)), hstep, er]
      · rw [R.idx_eq, f9]
        rfl
    · -- room left in the current chunk
      have hps : packStep st x = fillOne st x := by
        rw [packStep, if_neg hfl, hobj]
        rfl
      rw [hps]
      have R := ih (fillOne st x)
        hf1c
        (by rw [fillOne]; simp only [List.length_append, List.length_cons, List.length_nil]; omega)
        (by rw [fillOne]; simp only; rw [List.append_assoc]; simpa using h3)
        h4 h5
      have ecur : (fillOne st x).cur = st.cur ++ [x] := rfl
      refine {
        inv_count := R.inv_count
        inv_lt := R.inv_lt
        total_eq := ?_
        chunkNum_eq := ?_
        cur_len := ?_
        chunks_eq := R.chunks_eq
        align := R.align
        fresh := R.fresh
        flat := ?_
        frame := R.frame
        idx_eq := R.idx_eq }
      · rw [R.total_eq]
        simp only [fillOne, List.length_cons]
        omega
      · rw [R.chunkNum_eq, ecur]
        simp only [fillOne, List.length_append, List.length_cons, List.length_nil, Nat.zero_add]
        have hs2 : st.cur.length + 1 + xs.length = st.cur.length + (xs.length + 1) := by omega
        rw [hs2]
      · rw [R.cur_len, ecur]
        simp only [List.length_append, List.length_cons, List.length_nil, Nat.zero_add]
        have hs2 : st.cur.length + 1 + xs.length = st.cur.length + (xs.length + 1) := by omega
        rw [hs2]
      · rw [R.flat, ecur]
        simp only [List.append_assoc, List.singleton_append]
        rfl

theorem rangeKeys_ne_nil {c m : Nat} (h : 0 < m) : rangeKeys c m ≠ [] := by
  cases m with
  | zero => omega
  | succ p => rw [rangeKeys_succ_front]; exact List.cons_ne_nil _ _

/-- Full characterisation of `packAll` on a duplicate-free input. -/
theorem packAll_spec (s : Storage) (start : Nat) (ids : List String) (hnd : ids.Nodup)
    (F : PackSt) (hF : F = packAll s start ids) :
    F.total = ids.length ∧
    start ≤ F.chunkNum ∧
    F.newChunks = rangeKeys start (F.chunkNum - start) ∧
    F.newCounts = F.newChunks.map (fun k => (k, (getRec F.s k).length)) ∧
    (F.newChunks.map (fun k => getRec F.s k)).flatten = ids ∧
    (∀ k, (∀ j, start ≤ j → k ≠ chunkKeyFromNum j) → getRec F.s k = getRec s k) ∧
    F.s.index = s.index ∧
    (ids ≠ [] → F.newChunks ≠ []) ∧
    F.chunkNum = start + ids.length / DL_CHUNK_SIZE +
      (if ids.length % DL_CHUNK_SIZE = 0 then 0 else 1) := by
  have R := packFold_spec ids ⟨s, [], [], start, [], 0, 0⟩
    rfl DL_CHUNK_SIZE_pos (by simpa using hnd) rfl
    (by intro k hk; exact absurd hk (List.not_mem_nil k))
  set G := ids.foldl packStep (⟨s, [], [], start, [], 0, 0⟩ : PackSt) with hG
  have hGchunks : G.newChunks = rangeKeys start (G.chunkNum - start) := by
    have := R.chunks_eq
    rwa [List.nil_append] at this
  have hGle : start ≤ G.chunkNum := by
    rw [R.chunkNum_eq]
    exact Nat.le_add_right _ _
  have hGflat : (G.newChunks.map (fun k => getRec G.s k)).flatten ++ G.cur = ids := by
    have := R.flat
    simpa using this
  have hpa : packAll s start ids = if 0 < G.curCount then flushP G else G := by
    rw [packAll]
  by_cases h0 : 0 < G.curCount
  · subst hF
    rw [hpa, if_pos h0]
    obtain ⟨g1, g2, g3, g4, g5, g6, g7, g8, g9, g10⟩ :=
      flushP_props G R.inv_count R.align R.fresh
    have htot : (flushP G).total = ids.length := by
      rw [g8, R.total_eq]
      simp
    have hle : start ≤ (flushP G).chunkNum := by
      rw [g5]; omega
    have hmodpos : ids.length % DL_CHUNK_SIZE ≠ 0 := by
      have hc := R.cur_len
      have hi := R.inv_count
      simp only [List.length_nil, Nat.zero_add] at hc
      omega
    refine ⟨htot, hle, ?_, g2, ?_, ?_, ?_, ?_, ?_⟩
    · rw [g1, hGchunks, g5]
      have hm : G.chunkNum + 1 - start = (G.chunkNum - start) + 1 := by omega
      have hsd : start + (G.chunkNum - start) = G.chunkNum := by omega
      rw [hm, rangeKeys_succ_back, hsd]
    · rw [g4, hGflat]
    · intro k hk
      have h1 : getRec (flushP G).s k = getRec G.s k :=
        g10 k (hk G.chunkNum hGle)
      rw [h1]
      exact R.frame k (fun j hj => hk j hj)
    · rw [g9, R.idx_eq]
    · intro _
      rw [g1]
      exact fun h => List.noConfusion (List.append_eq_nil.mp h).2
    · rw [g5, R.chunkNum_eq, if_neg hmodpos]
      simp only [List.length_nil, Nat.zero_add]
  · subst hF
    rw [hpa, if_neg h0]
    have hcur : G.cur = [] := by
      have : G.cur.length = 0 := by
        have := R.inv_count
        omega
      exact List.length_eq_zero.mp this
    have hmod0 : ids.length % DL_CHUNK_SIZE = 0 := by
      have hc := R.cur_len
      have hi := R.inv_count
      simp only [List.length_nil, Nat.zero_add] at hc
      omega
    refine ⟨?_, hGle, hGchunks, R.align, ?_, ?_, R.idx_eq, ?_, ?_⟩
    · rw [R.total_eq]
      simp
    · rw [← hGflat, hcur, List.append_nil]
    · intro k hk
      exact R.frame k (fun j hj => hk j hj)
    · intro hne
      rw [hGchunks]
      apply rangeKeys_ne_nil
      have hmod : ids.length % DL_CHUNK_SIZE = 0 := by
        have := R.cur_len
        rw [hcur] at this
        simpa using this.symm
      have hdiv : 0 < ids.length / DL_CHUNK_SIZE := by
        rcases Nat.eq_zero_or_pos (ids.length / DL_CHUNK_SIZE) with hz | hp
        · exfalso
          have hlt : ids.length < DL_CHUNK_SIZE :=
            (Nat.div_eq_zero_iff DL_CHUNK_SIZE_pos).mp hz
          rw [Nat.mod_eq_of_lt hlt] at hmod
          exact hne (List.length_eq_zero.mp hmod)
        · exact hp
      have : G.chunkNum = start + ids.length / DL_CHUNK_SIZE := by
        have := R.chunkNum_eq
        simpa using this
      omega
    · rw [R.chunkNum_eq, if_pos hmod0]
      simp only [List.length_nil, Nat.zero_add]
      omega

/-! ## `[...new Set(...)]` deduplication lemmas -/

theorem dedupJS_foldl_nodup :
    ∀ (l acc : List String), acc.Nodup →
      (l.foldl (fun acc x => if acc.contains x then acc else acc ++ [x]) acc).Nodup := by
  intro l
  induction l with
  | nil => intro acc h; exact h
  | cons x t ih =>
    intro acc h
    rw [List.foldl_cons]
    by_cases hc : acc.contains x
    · rw [if_pos hc]; exact ih acc h
    · rw [if_neg hc]
      refine ih _ ?_
      rw [List.nodup_append]
      refine ⟨h, List.nodup_singleton x, ?_⟩
      intro a ha hmem
      rw [List.mem_singleton.mp hmem] at ha
      exact (by simpa using hc : x ∉ acc) ha

theorem dedupJS_nodup (l : List String) : (dedupJS l).Nodup :=
  dedupJS_foldl_nodup l [] List.nodup_nil

theorem dedupJS_foldl_self :
    ∀ (l acc : List String), (acc ++ l).Nodup →
      l.foldl (fun acc x => if acc.contains x then acc else acc ++ [x]) acc = acc ++ l := by
  intro l
  induction l with
  | nil => intro acc _; rw [List.foldl_nil, List.append_nil]
  | cons x t ih =>
    intro acc h
    have hx : x ∉ acc := by
      rcases List.nodup_append.mp h with ⟨-, -, hdis⟩
      intro hmem
      exact hdis hmem (List.mem_cons_self x t)
    rw [List.foldl_cons, if_neg (by simpa using hx), ih _ (by rw [List.append_assoc]; simpa using h)]
    simp

/-- On a duplicate-free list the JS `Set` dedup is the identity. -/
theorem dedupJS_eq_self {l : List String} (h : l.Nodup) : dedupJS l = l :=
  dedupJS_foldl_self l [] (by simpa using h)

/-- Appending an element already present does not change the dedup. -/
theorem dedupJS_append_mem {l : List String} {x : String} (h : l.Nodup) (hx : x ∈ l) :
    dedupJS (l ++ [x]) = l := by
  rw [dedupJS, List.foldl_append]
  have h1 : l.foldl (fun acc x => if acc.contains x then acc else acc ++ [x]) [] = l :=
    dedupJS_eq_self h
  rw [h1, List.foldl_cons, List.foldl_nil, if_pos (by simpa using hx)]

/-- Membership through the index is membership of the flattened chunk
contents. -/
theorem contains_flatten_any (ks : List Key) (st : Storage) (x : String) :
    ((ks.map (fun k => getRec st k)).flatten).contains x =
      ks.any (fun k => (getRec st k).contains x) := by
  induction ks with
  | nil => rfl
  | cons k t ih =>
    rw [List.map_cons, List.flatten_cons, List.any_cons, ← ih]
    by_cases h1 : x ∈ getRec st k <;>
      by_cases h2 : x ∈ (t.map (fun k => getRec st k)).flatten <;>
      simp [h1, h2]

/-! ## Characterisation of override-mode import -/

/-- Old canonical chunk keys lie strictly below the allocation base. -/
theorem old_keys_below_start {idx : Index}
    (hcanon : ∀ k ∈ idx.chunks, ∃ n, n ≤ 9999 ∧ k = chunkKeyFromNum n) :
    ∀ k ∈ idx.chunks, ∀ j, (maxChunkNumFold idx.chunks + 1).toNat ≤ j →
      k ≠ chunkKeyFromNum j := by
  intro k hk j hj
  rcases hcanon k hk with ⟨n, hn, rfl⟩
  have hp : parseChunkNum (chunkKeyFromNum n) = some n := parseChunkNum_chunkKeyFromNum hn
  have h1 : (n : Int) ≤ maxChunkNumFold idx.chunks := maxChunkNumFold_ge hk hp
  have h2 : -1 ≤ maxChunkNumFold idx.chunks := maxChunkNumFold_ge_neg_one _
  intro heq
  have : n = j := chunkKeyFromNum_inj heq
  omega

/-- New chunk keys are absent from the old chunk list. -/
theorem new_keys_not_old {idx : Index} {F : PackSt}
    (hcanon : ∀ k ∈ idx.chunks, ∃ n, n ≤ 9999 ∧ k = chunkKeyFromNum n)
    (hchunks : F.newChunks =
      rangeKeys (maxChunkNumFold idx.chunks + 1).toNat
        (F.chunkNum - (maxChunkNumFold idx.chunks + 1).toNat)) :
    ∀ k ∈ F.newChunks, idx.chunks.contains k = false := by
  intro k hk
  rw [hchunks] at hk
  rcases mem_rangeKeys.mp hk with ⟨i, hi, rfl⟩
  by_contra hmem
  have hm2 : chunkKeyFromNum ((maxChunkNumFold idx.chunks + 1).toNat + i) ∈ idx.chunks := by
    have := Bool.of_not_eq_false hmem
    simpa using this
  exact old_keys_below_start hcanon _ hm2 _ (Nat.le_add_right _ _) rfl

/-- The override import run, reduced. -/
theorem override_run (ids : List JsonVal) (s : Storage) (idx : Index)
    (hidx : s.index = some idx)
    (hne : dedupJS (jsFilterStrings ids) ≠ []) :
    importIdsFromList ids false s =
      (.imported (packAll s (maxChunkNumFold idx.chunks + 1).toNat
          (dedupJS (jsFilterStrings ids))).total,
        (let F := packAll s (maxChunkNumFold idx.chunks + 1).toNat
            (dedupJS (jsFilterStrings ids))
         let newIdx : Index := ⟨2, DL_CHUNK_SIZE, F.newChunks, F.newCounts, F.total⟩
         if idx.chunks = [] then putIdx F.s newIdx
         else dropRecs (putIdx F.s newIdx) idx.chunks)) := by
  rw [importIdsFromList]
  simp only [if_neg hne, ensureIndexO_some hidx, importPhase2, Bool.false_eq_true, if_false]

/-- What override-mode import guarantees: the reported and stored
total is the number of usable deduplicated identifiers, the export
after the import returns exactly them, and membership afterwards is
membership of that deduplicated list. -/
theorem override_spec (ids : List JsonVal) (s : Storage) (idx : Index)
    (hidx : s.index = some idx)
    (hcanon : ∀ k ∈ idx.chunks, ∃ n, n ≤ 9999 ∧ k = chunkKeyFromNum n)
    (hne : dedupJS (jsFilterStrings ids) ≠ []) :
    (importIdsFromList ids false s).1 =
      .imported (dedupJS (jsFilterStrings ids)).length ∧
    (memGetCount (importIdsFromList ids false s).2).1 =
      (dedupJS (jsFilterStrings ids)).length ∧
    (exportAllM (importIdsFromList ids false s).2).1 =
      some (dedupJS (jsFilterStrings ids), (dedupJS (jsFilterStrings ids)).length) ∧
    (∀ x, memberOf (importIdsFromList ids false s).2 x =
      (dedupJS (jsFilterStrings ids)).contains x) := by
  obtain ⟨ptot, ple, pchunks, palign, pflat, pframe, pidx, pne, pcn⟩ :=
    packAll_spec s (maxChunkNumFold idx.chunks + 1).toNat (dedupJS (jsFilterStrings ids))
      (dedupJS_nodup _) _ rfl
  have hnotold := new_keys_not_old hcanon pchunks
  have hrun := override_run ids s idx hidx hne
  have hS := congrArg Prod.snd hrun
  simp only at hS
  have hidxS : (importIdsFromList ids false s).2.index =
      some ⟨2, DL_CHUNK_SIZE,
        (packAll s (maxChunkNumFold idx.chunks + 1).toNat
          (dedupJS (jsFilterStrings ids))).newChunks,
        (packAll s (maxChunkNumFold idx.chunks + 1).toNat
          (dedupJS (jsFilterStrings ids))).newCounts,
        (packAll s (maxChunkNumFold idx.chunks + 1).toNat
          (dedupJS (jsFilterStrings ids))).total⟩ := by
    rw [hS]
    by_cases hic : idx.chunks = []
    · rw [if_pos hic]; rfl
    · rw [if_neg hic]; rfl
  have hrecS : ∀ k, idx.chunks.contains k = false →
      getRec (importIdsFromList ids false s).2 k =
        getRec (packAll s (maxChunkNumFold idx.chunks + 1).toNat
          (dedupJS (jsFilterStrings ids))).s k := by
    intro k hk
    rw [hS]
    by_cases hic : idx.chunks = []
    · rw [if_pos hic]
      exact getRec_putIdx _ _ _
    · rw [if_neg hic]
      rw [getRec_dropRecs _ _ hk]
      exact getRec_putIdx _ _ _
  have hmapS : (packAll s (maxChunkNumFold idx.chunks + 1).toNat
        (dedupJS (jsFilterStrings ids))).newChunks.map
        (fun k => getRec (importIdsFromList ids false s).2 k) =
      (packAll s (maxChunkNumFold idx.chunks + 1).toNat
        (dedupJS (jsFilterStrings ids))).newChunks.map
        (fun k => getRec (packAll s (maxChunkNumFold idx.chunks + 1).toNat
          (dedupJS (jsFilterStrings ids))).s k) :=
    List.map_congr_left (fun k hk => hrecS k (hnotold k hk))
  refine ⟨?_, ?_, ?_, ?_⟩
  · have h1 := congrArg Prod.fst hrun
    simp only at h1
    rw [h1, ptot]
  · rw [memGetCount, ensureIndexB_some hidxS (by show DL_CHUNK_SIZE ≠ 0; decide)]
    exact ptot
  · rw [exportAllM, ensureIndexO_some hidxS]
    simp only
    rw [if_neg (pne hne), hmapS, pflat]
  · intro x
    rw [memberOf, hidxS]
    simp only
    rw [← contains_flatten_any, hmapS, pflat]

/-- An import whose input has no usable identifier is a no-op. -/
theorem import_noUsable {ids : List JsonVal} (mergeMode : Bool) (s : Storage)
    (h : dedupJS (jsFilterStrings ids) = []) :
    importIdsFromList ids mergeMode s = (.noUsable, s) := by
  rw [importIdsFromList]
  simp only [h]
  rfl

/-! ## C4: override-mode import -/

/-- Store for the first C4 failure mode: a store holding `"a"`. -/
def c4Store : Storage :=
  ⟨some ⟨2, 5000, [chunkKeyFromNum 0], [(chunkKeyFromNum 0, 1)], 1⟩,
    [(chunkKeyFromNum 0, ["a"])]⟩

/-- Store for the second C4 failure mode: chunk keys 9999 and 10000
(the latter outside the 4-digit convention). -/
def c4Collide : Storage :=
  ⟨some ⟨2, 5000, [chunkKeyFromNum 9999, chunkKeyFromNum 10000],
      [(chunkKeyFromNum 9999, 1), (chunkKeyFromNum 10000, 1)], 2⟩,
    [(chunkKeyFromNum 9999, ["a"]), (chunkKeyFromNum 10000, ["b"])]⟩

/-- **C4 is false as stated**, in two ways.  (i) `importOverride([])`
does not replace the store with the empty set: it is a no-op, the
previous identifier `"a"` stays reachable and `count()` stays 1.
(ii) On a store whose chunk keys have exhausted the 4-digit padding,
`importOverride(["c"])` allocates the new chunk under the *same* key
as an existing chunk (`chunk_10000`) and then deletes it as an "old"
chunk, so afterwards `count() = 1` but `"c"` is not in the store and
`exportAll` does not return `["c"]`. -/
theorem C4_cex_override_not_exact :
    ((memGetCount (importIdsFromList [] false c4Store).2).1 = 1 ∧
      (dedupJS (jsFilterStrings [])).length = 0 ∧
      memberOf (importIdsFromList [] false c4Store).2 "a" = true) ∧
    ((memGetCount (importIdsFromList [.str "c"] false c4Collide).2).1 = 1 ∧
      memberOf (importIdsFromList [.str "c"] false c4Collide).2 "c" = false ∧
      (exportAllM (importIdsFromList [.str "c"] false c4Collide).2).1 = some ([], 0)) := by
  refine ⟨⟨by decide, by decide, by decide⟩, ⟨by decide, by decide, by decide⟩⟩

/-- **C4 (amended).** If the input has at least one usable member and
every chunk key in the store's index is canonical (a 4-digit key of a
sequence number ≤ 9999), `importOverride(ids)` leaves the store
containing exactly the deduplicated non-empty string members of `ids`:
`count()` equals that list's length (a cardinality, since it is
duplicate-free), `exportAll()` returns exactly its members, and an
identifier is reachable afterwards iff it is in that list.  If the
input has no usable member, the import is a no-op instead. -/
theorem C4_override_replaces_store (ids : List JsonVal) (s : Storage) (idx : Index)
    (hidx : s.index = some idx)
    (hcanon : ∀ k ∈ idx.chunks, ∃ n, n ≤ 9999 ∧ k = chunkKeyFromNum n) :
    (dedupJS (jsFilterStrings ids) = [] →
      importIdsFromList ids false s = (.noUsable, s)) ∧
    (dedupJS (jsFilterStrings ids) ≠ [] →
      (dedupJS (jsFilterStrings ids)).Nodup ∧
      (importIdsFromList ids false s).1 =
        .imported (dedupJS (jsFilterStrings ids)).length ∧
      (memGetCount (importIdsFromList ids false s).2).1 =
        (dedupJS (jsFilterStrings ids)).length ∧
      (exportAllM (importIdsFromList ids false s).2).1 =
        some (dedupJS (jsFilterStrings ids), (dedupJS (jsFilterStrings ids)).length) ∧
      (∀ x, memberOf (importIdsFromList ids false s).2 x =
        (dedupJS (jsFilterStrings ids)).contains x)) := by
  constructor
  · intro h
    exact import_noUsable false s h
  · intro hne
    obtain ⟨h1, h2, h3, h4⟩ := override_spec ids s idx hidx hcanon hne
    exact ⟨dedupJS_nodup _, h1, h2, h3, h4⟩

/-- Witness for the amended C4: overriding the `"a"` store with
`["c", "c", ""]` leaves exactly `{"c"}`. -/
theorem C4_override_replaces_store_witness :
    (c4Store.index = some ⟨2, 5000, [chunkKeyFromNum 0], [(chunkKeyFromNum 0, 1)], 1⟩) ∧
    (dedupJS (jsFilterStrings [.str "c", .str "c", .str ""]) ≠ [] →
      (dedupJS (jsFilterStrings [.str "c", .str "c", .str ""])).Nodup ∧
      (importIdsFromList [.str "c", .str "c", .str ""] false c4Store).1 =
        .imported (dedupJS (jsFilterStrings [.str "c", .str "c", .str ""])).length ∧
      (memGetCount (importIdsFromList [.str "c", .str "c", .str ""] false c4Store).2).1 =
        (dedupJS (jsFilterStrings [.str "c", .str "c", .str ""])).length ∧
      (exportAllM (importIdsFromList [.str "c", .str "c", .str ""] false c4Store).2).1 =
        some (dedupJS (jsFilterStrings [.str "c", .str "c", .str ""]),
          (dedupJS (jsFilterStrings [.str "c", .str "c", .str ""])).length) ∧
      (∀ x, memberOf (importIdsFromList [.str "c", .str "c", .str ""] false c4Store).2 x =
        (dedupJS (jsFilterStrings [.str "c", .str "c", .str ""])).contains x)) :=
  ⟨rfl,
    (C4_override_replaces_store [.str "c", .str "c", .str ""] c4Store
      ⟨2, 5000, [chunkKeyFromNum 0], [(chunkKeyFromNum 0, 1)], 1⟩ rfl
      (by
        intro k hk
        simp only [Index.chunks] at hk
        rw [List.mem_singleton.mp hk]
        exact ⟨0, by omega, rfl⟩)).2⟩

theorem memberOf_putIdx (X : Storage) (ni : Index) (x : String) :
    memberOf (putIdx X ni) x = ni.chunks.any (fun k => (getRec X k).contains x) := rfl

theorem memberOf_some {s : Storage} {idx : Index} (h : s.index = some idx) (x : String) :
    memberOf s x = idx.chunks.any (fun k => (getRec s k).contains x) := by
  rw [memberOf, h]

/-! ## C5: merge-mode import -/

theorem memGetCount_some {s : Storage} {idx : Index} (h : s.index = some idx) :
    (memGetCount s).1 = idx.total := by
  rw [memGetCount, ensureIndexB, h]

theorem length_filter_not_add (l : List String) (p : String → Bool) :
    (l.filter (fun a => ¬ p a)).length + (l.filter p).length = l.length := by
  induction l with
  | nil => rfl
  | cons x t ih =>
    by_cases h : p x
    · rw [List.filter_cons_of_neg (by simp [h]), List.filter_cons_of_pos (by simp [h])]
      simp only [List.length_cons]
      omega
    · rw [List.filter_cons_of_pos (by simp [h]), List.filter_cons_of_neg (by simp [h])]
      simp only [List.length_cons]
      omega

/-- The merge import run, reduced (non-trivial input). -/
theorem merge_run (ids : List JsonVal) (s : Storage) (idx : Index)
    (hidx : s.index = some idx)
    (hne : dedupJS (jsFilterStrings ids) ≠ []) :
    importIdsFromList ids true s =
      (let cleaned := dedupJS (jsFilterStrings ids)
       let existing := (idx.chunks.map (fun k => getRec s k)).flatten
       let toWrite := cleaned.filter (fun id => ¬ existing.contains id)
       if toWrite = [] then (.nothingNew cleaned.length, s)
       else
         let F := packAll s (maxChunkNumFold idx.chunks + 1).toNat toWrite
         (.merged F.total (cleaned.length - toWrite.length) (idx.total + F.total),
           putIdx F.s ⟨2, DL_CHUNK_SIZE, idx.chunks ++ F.newChunks,
             F.newCounts ++ idx.counts, idx.total + F.total⟩)) := by
  rw [importIdsFromList]
  simp only [if_neg hne, ensureIndexO_some hidx, importPhase2, eq_self_iff_true, if_true]

/-- Store for the C5 counterexample: chunk keys 9999 and 10000. -/
def c5Collide : Storage :=
  ⟨some ⟨2, 5000, [chunkKeyFromNum 9999, chunkKeyFromNum 10000],
      [(chunkKeyFromNum 9999, 1), (chunkKeyFromNum 10000, 1)], 2⟩,
    [(chunkKeyFromNum 9999, ["a"]), (chunkKeyFromNum 10000, ["b"])]⟩

/-- **C5 is false as stated**: on a store whose chunk keys have
exhausted the 4-digit padding, `importMerge(["c"])` writes the new
chunk under the *same* key as the existing chunk `chunk_10000`,
overwriting it: the existing identifier `"b"` does not stay in its
chunk (it vanishes), even though the claim promises every existing
identifier is left in its original chunk. -/
theorem C5_cex_merge_overwrites_chunk :
    memberOf c5Collide "b" = true ∧
    (importIdsFromList [.str "c"] true c5Collide).1 = .merged 1 0 3 ∧
    memberOf (importIdsFromList [.str "c"] true c5Collide).2 "b" = false ∧
    getRec (importIdsFromList [.str "c"] true c5Collide).2 (chunkKeyFromNum 10000) = ["c"] := by
  refine ⟨by decide, by decide, by decide, by decide⟩

/-- **C5 (amended).** On a store whose index chunk keys are canonical
(4-digit keys of sequence numbers ≤ 9999), `importMerge(ids)` adds
exactly the deduplicated non-empty members of `ids` that are not
already present: existing chunks are untouched, the reported duplicate
count is the number of deduplicated usable members already present,
and the final total is the previous `count()` plus the number of new
identifiers.  If nothing is new no write occurs (the storage is
returned unchanged), and if the input has no usable member the import
is a no-op reporting "no usable IDs". -/
theorem C5_merge_adds_only_new (ids : List JsonVal) (s : Storage) (idx : Index)
    (hidx : s.index = some idx)
    (hcanon : ∀ k ∈ idx.chunks, ∃ n, n ≤ 9999 ∧ k = chunkKeyFromNum n) :
    (dedupJS (jsFilterStrings ids) = [] →
      importIdsFromList ids true s = (.noUsable, s)) ∧
    (dedupJS (jsFilterStrings ids) ≠ [] →
      (let cleaned := dedupJS (jsFilterStrings ids)
       let existing := (idx.chunks.map (fun k => getRec s k)).flatten
       let toWrite := cleaned.filter (fun id => ¬ existing.contains id)
       (toWrite = [] → importIdsFromList ids true s = (.nothingNew cleaned.length, s)) ∧
       (toWrite ≠ [] →
         (importIdsFromList ids true s).1 =
           .merged toWrite.length
             ((cleaned.filter (fun id => existing.contains id)).length)
             (idx.total + toWrite.length) ∧
         (memGetCount s).1 = idx.total ∧
         (memGetCount (importIdsFromList ids true s).2).1 =
           idx.total + toWrite.length ∧
         (∀ k ∈ idx.chunks, getRec (importIdsFromList ids true s).2 k = getRec s k) ∧
         (∀ x, memberOf (importIdsFromList ids true s).2 x =
           (memberOf s x || toWrite.contains x))))) := by
  constructor
  · intro h
    exact import_noUsable true s h
  · intro hne
    have hrun := merge_run ids s idx hidx hne
    simp only at hrun ⊢
    set C := dedupJS (jsFilterStrings ids) with hC
    set E := (idx.chunks.map (fun k => getRec s k)).flatten with hE
    set W := C.filter (fun id => ¬ E.contains id) with hW
    constructor
    · intro hw
      rw [hrun, if_pos hw]
    · intro hw
      rw [if_neg hw] at hrun
      set F := packAll s (maxChunkNumFold idx.chunks + 1).toNat W with hF
      obtain ⟨ptot, ple, pchunks, palign, pflat, pframe, pidx, pne, pcn⟩ :=
        packAll_spec s (maxChunkNumFold idx.chunks + 1).toNat W
          ((dedupJS_nodup _).filter _) F hF
      have hS := congrArg Prod.snd hrun
      have h1 := congrArg Prod.fst hrun
      simp only at hS h1
      have holdrec : ∀ k ∈ idx.chunks,
          getRec (importIdsFromList ids true s).2 k = getRec s k := by
        intro k hk
        rw [hS, getRec_putIdx]
        exact pframe k (old_keys_below_start hcanon k hk)
      have hdup : C.length - W.length = (C.filter (fun id => E.contains id)).length := by
        have := length_filter_not_add C (fun id => E.contains id)
        rw [hW]
        omega
      refine ⟨?_, memGetCount_some hidx, ?_, holdrec, ?_⟩
      · rw [h1, ptot, hdup]
      · rw [hS, memGetCount, ensureIndexB_some rfl (by show DL_CHUNK_SIZE ≠ 0; decide)]
        simp only
        rw [ptot]
      · intro x
        rw [hS, memberOf_putIdx, List.any_append, memberOf_some hidx]
        have hold2 : idx.chunks.any (fun k => (getRec F.s k).contains x) =
            idx.chunks.any (fun k => (getRec s k).contains x) := by
          rw [← contains_flatten_any, ← contains_flatten_any]
          have hm := List.map_congr_left
            (fun k hk => pframe k (old_keys_below_start hcanon k hk))
          rw [hm]
        have hnew : F.newChunks.any (fun k => (getRec F.s k).contains x) =
            W.contains x := by
          rw [← contains_flatten_any, pflat]
        rw [hold2, hnew]

/-- Witness store for the amended C5: one chunk holding `"a"`. -/
def c5w : Storage :=
  ⟨some ⟨2, 5000, [chunkKeyFromNum 0], [(chunkKeyFromNum 0, 1)], 1⟩,
    [(chunkKeyFromNum 0, ["a"])]⟩

/-- Witness for the amended C5 at `importMerge(["a","b"])` on a store
of size 1 containing `"a"`. -/
theorem C5_merge_adds_only_new_witness :
    (c5w.index = some ⟨2, 5000, [chunkKeyFromNum 0], [(chunkKeyFromNum 0, 1)], 1⟩) ∧
    ((dedupJS (jsFilterStrings [JsonVal.str "a", JsonVal.str "b"]) = [] →
      importIdsFromList [JsonVal.str "a", JsonVal.str "b"] true c5w = (.noUsable, c5w)) ∧
    (dedupJS (jsFilterStrings [JsonVal.str "a", JsonVal.str "b"]) ≠ [] →
      (let cleaned := dedupJS (jsFilterStrings [JsonVal.str "a", JsonVal.str "b"])
       let existing := ((⟨2, 5000, [chunkKeyFromNum 0], [(chunkKeyFromNum 0, 1)], 1⟩ :
          Index).chunks.map (fun k => getRec c5w k)).flatten
       let toWrite := cleaned.filter (fun id => ¬ existing.contains id)
       (toWrite = [] → importIdsFromList [JsonVal.str "a", JsonVal.str "b"] true c5w =
          (.nothingNew cleaned.length, c5w)) ∧
       (toWrite ≠ [] →
         (importIdsFromList [JsonVal.str "a", JsonVal.str "b"] true c5w).1 =
           .merged toWrite.length
             ((cleaned.filter (fun id => existing.contains id)).length)
             ((⟨2, 5000, [chunkKeyFromNum 0], [(chunkKeyFromNum 0, 1)], 1⟩ : Index).total +
                toWrite.length) ∧
         (memGetCount c5w).1 =
            (⟨2, 5000, [chunkKeyFromNum 0], [(chunkKeyFromNum 0, 1)], 1⟩ : Index).total ∧
         (memGetCount (importIdsFromList [JsonVal.str "a", JsonVal.str "b"] true c5w).2).1 =
           (⟨2, 5000, [chunkKeyFromNum 0], [(chunkKeyFromNum 0, 1)], 1⟩ : Index).total +
             toWrite.length ∧
         (∀ k ∈ (⟨2, 5000, [chunkKeyFromNum 0], [(chunkKeyFromNum 0, 1)], 1⟩ : Index).chunks,
           getRec (importIdsFromList [JsonVal.str "a", JsonVal.str "b"] true c5w).2 k =
             getRec c5w k) ∧
         (∀ x, memberOf (importIdsFromList [JsonVal.str "a", JsonVal.str "b"] true c5w).2 x =
           (memberOf c5w x || toWrite.contains x)))))) :=
  ⟨rfl,
    C5_merge_adds_only_new [JsonVal.str "a", JsonVal.str "b"] c5w
      ⟨2, 5000, [chunkKeyFromNum 0], [(chunkKeyFromNum 0, 1)], 1⟩ rfl
      (by
        intro k hk
        simp only [Index.chunks] at hk
        rw [List.mem_singleton.mp hk]
        exact ⟨0, by omega, rfl⟩)⟩

/-! ## C3: the export/import round trip

The counterexample needs a *reachable* store in which one identifier
sits in two chunks: import 5000 distinct identifiers (filling chunk
0000 exactly), then `add` one of them again — the full chunk is not
consulted, so the identifier is duplicated into chunk 0001. -/

/-- Stores reachable from the empty storage by completed operations of
the background worker and the options page. -/
inductive Reach : Storage → Prop where
  | empty : Reach ⟨none, []⟩
  | add (id : String) {s : Storage} : Reach s → Reach (memAddId id s).2
  | count {s : Storage} : Reach s → Reach (memGetCount s).2
  | clear {s : Storage} : Reach s → Reach (memClearAll s)
  | doImport (ids : List JsonVal) (mergeMode : Bool) {s : Storage} :
      Reach s → Reach (importIdsFromList ids mergeMode s).2
  | doExport {s : Storage} : Reach s → Reach (exportAllM s).2

/-- `importOverride(exportAll())`: run the export, feed the resulting
identifier list back through override-mode import. -/
def roundTrip (s : Storage) : Storage :=
  match exportAllM s with
  | (some p, s1) => (importIdsFromList (p.1.map JsonVal.str) false s1).2
  | (none, s1) => s1

/-- 5000 pairwise-distinct non-empty identifiers. -/
def dupIds : List String := (List.range 5000).map (fun i => String.mk (natChars i))

theorem natChars_inj : Function.Injective natChars := by
  intro a b h
  have := congrArg valC h
  rwa [valC_natChars, valC_natChars] at this

theorem dupIds_nodup : dupIds.Nodup := by
  rw [dupIds]
  refine List.Nodup.map ?_ (List.nodup_range 5000)
  intro a b h
  apply natChars_inj
  injection h

theorem dupIds_length : dupIds.length = 5000 := by
  rw [dupIds, List.length_map, List.length_range]

theorem dupIds_pos : ∀ x ∈ dupIds, 0 < x.length := by
  intro x hx
  rw [dupIds] at hx
  rcases List.mem_map.mp hx with ⟨i, -, rfl⟩
  have h1 : (String.mk (natChars i)).length = (natChars i).length := rfl
  rw [h1]
  exact List.length_pos.mpr (natChars_ne_nil i)

theorem zero_mem_dupIds : ("0" : String) ∈ dupIds := by
  rw [dupIds]
  exact List.mem_map.mpr ⟨0, List.mem_range.mpr (by omega), rfl⟩

theorem dupIds_ne_nil : dupIds ≠ [] := by
  intro h
  have := congrArg List.length h
  rw [dupIds_length] at this
  exact absurd this (by decide)

theorem jsFilterStrings_map_str (l : List String) (h : ∀ x ∈ l, 0 < x.length) :
    jsFilterStrings (l.map JsonVal.str) = l := by
  induction l with
  | nil => rfl
  | cons x t ih =>
    rw [List.map_cons, jsFilterStrings, List.filterMap_cons]
    simp only
    rw [if_pos (by simpa using h x (List.mem_cons_self x t))]
    rw [jsFilterStrings] at ih
    rw [ih (fun y hy => h y (List.mem_cons_of_mem x hy))]

theorem c3_cleaned : dedupJS (jsFilterStrings (dupIds.map JsonVal.str)) = dupIds := by
  rw [jsFilterStrings_map_str dupIds dupIds_pos, dedupJS_eq_self dupIds_nodup]

/-- The empty store with a freshly rebuilt (empty) index. -/
def sEmptyIdx : Storage := ⟨some ⟨2, DL_CHUNK_SIZE, [], [], 0⟩, []⟩

/-- Override-importing into the never-initialised store first
materialises the empty index, then proceeds as on `sEmptyIdx`. -/
theorem import_empty_switch (ids : List JsonVal)
    (hne : dedupJS (jsFilterStrings ids) ≠ []) :
    importIdsFromList ids false ⟨none, []⟩ = importIdsFromList ids false sEmptyIdx := by
  rw [importIdsFromList, importIdsFromList]
  simp only [if_neg hne]
  rw [show ensureIndexO ⟨none, []⟩ = (⟨2, DL_CHUNK_SIZE, [], [], 0⟩, sEmptyIdx) from rfl,
    ensureIndexO_some (show sEmptyIdx.index = some ⟨2, DL_CHUNK_SIZE, [], [], 0⟩ from rfl)]

theorem c3_dup_ne : dedupJS (jsFilterStrings (dupIds.map JsonVal.str)) ≠ [] := by
  rw [c3_cleaned]
  exact dupIds_ne_nil

theorem c3_S1_facts :
    (importIdsFromList (dupIds.map JsonVal.str) false ⟨none, []⟩).2.index =
      some ⟨2, DL_CHUNK_SIZE, [chunkKeyFromNum 0], [(chunkKeyFromNum 0, 5000)], 5000⟩ ∧
    getRec (importIdsFromList (dupIds.map JsonVal.str) false ⟨none, []⟩).2
      (chunkKeyFromNum 0) = dupIds := by
  rw [import_empty_switch _ c3_dup_ne]
  have hrun := override_run (dupIds.map JsonVal.str) sEmptyIdx
    ⟨2, DL_CHUNK_SIZE, [], [], 0⟩ rfl c3_dup_ne
  rw [c3_cleaned] at hrun
  simp only at hrun
  rw [show ((maxChunkNumFold (⟨2, DL_CHUNK_SIZE, [], [], 0⟩ : Index).chunks + 1).toNat) = 0
    from rfl] at hrun
  rw [if_true] at hrun
  obtain ⟨ptot, ple, pchunks, palign, pflat, pframe, pidx, pne, pcn⟩ :=
    packAll_spec sEmptyIdx 0 dupIds dupIds_nodup _ rfl
  have hcn : (packAll sEmptyIdx 0 dupIds).chunkNum = 1 := by
    rw [pcn, dupIds_length]
    norm_num [DL_CHUNK_SIZE]
  have hchunks1 : (packAll sEmptyIdx 0 dupIds).newChunks = [chunkKeyFromNum 0] := by
    rw [pchunks, hcn]
    decide
  have hrec : getRec (packAll sEmptyIdx 0 dupIds).s (chunkKeyFromNum 0) = dupIds := by
    have h2 := pflat
    rw [hchunks1] at h2
    simpa using h2
  have hcounts : (packAll sEmptyIdx 0 dupIds).newCounts = [(chunkKeyFromNum 0, 5000)] := by
    rw [palign, hchunks1, List.map_cons, List.map_nil, hrec, dupIds_length]
  have hS := congrArg Prod.snd hrun
  simp only at hS
  constructor
  · rw [hS]
    simp only [putIdx]
    rw [hchunks1, hcounts, ptot, dupIds_length]
  · rw [hS, getRec_putIdx]
    exact hrec

/-- Adding `"0"` again to a store whose single (full) chunk already
holds it: the full chunk is not consulted, a fresh chunk 0001 is
allocated, and `"0"` is stored a second time. -/
theorem c3_dup_add (S1 : Storage)
    (hidx : S1.index =
      some ⟨2, DL_CHUNK_SIZE, [chunkKeyFromNum 0], [(chunkKeyFromNum 0, 5000)], 5000⟩)
    (hrec0 : getRec S1 (chunkKeyFromNum 0) = dupIds) :
    (memAddId "0" S1).2.index =
      some ⟨2, DL_CHUNK_SIZE, [chunkKeyFromNum 0, chunkKeyFromNum 1],
        [(chunkKeyFromNum 1, 1), (chunkKeyFromNum 1, 0), (chunkKeyFromNum 0, 5000)], 5001⟩ ∧
    getRec (memAddId "0" S1).2 (chunkKeyFromNum 0) = dupIds ∧
    getRec (memAddId "0" S1).2 (chunkKeyFromNum 1) = ["0"] ∧
    (memAddId "0" S1).1 = .added 5001 := by
  have hstep := @memAddId_alloc S1 _ "0" hidx (by decide) (by decide)
    (by
      intro last hl
      simp only [List.getLast?_singleton, Option.some.injEq] at hl
      subst hl
      decide)
  simp only at hstep
  rw [show (maxChunkNumFold [chunkKeyFromNum 0] + 1).toNat = 1 from by decide] at hstep
  simp only [setCount, List.cons_append, List.nil_append] at hstep
  have hrecS : getRec (putRec (putIdx S1
      ⟨2, DL_CHUNK_SIZE, [chunkKeyFromNum 0, chunkKeyFromNum 1],
        [(chunkKeyFromNum 1, 0), (chunkKeyFromNum 0, 5000)], 5000⟩)
      (chunkKeyFromNum 1) []) (chunkKeyFromNum 1) = [] := getRec_putRec_self _ _ _
  rw [addToChunk_new (by rw [hrecS]; rfl)] at hstep
  rw [hrecS] at hstep
  simp only [List.nil_append, setCount] at hstep
  rw [show getCount [(chunkKeyFromNum 1, 0), (chunkKeyFromNum 0, 5000)] (chunkKeyFromNum 1) =
    some 0 from by decide] at hstep
  simp only [Option.getD_some, Nat.zero_add] at hstep
  refine ⟨?_, ?_, ?_, ?_⟩
  · rw [hstep]
    rfl
  · rw [hstep, getRec_putIdx, getRec_putRec_ne _ _ _ (by decide),
      getRec_putRec_ne _ _ _ (by decide), getRec_putIdx]
    exact hrec0
  · rw [hstep, getRec_putIdx, getRec_putRec_self]
  · rw [hstep]

theorem c3_export (S2 : Storage)
    (hidx : S2.index =
      some ⟨2, DL_CHUNK_SIZE, [chunkKeyFromNum 0, chunkKeyFromNum 1],
        [(chunkKeyFromNum 1, 1), (chunkKeyFromNum 1, 0), (chunkKeyFromNum 0, 5000)], 5001⟩)
    (h0 : getRec S2 (chunkKeyFromNum 0) = dupIds)
    (h1 : getRec S2 (chunkKeyFromNum 1) = ["0"]) :
    exportAllM S2 = (some (dupIds ++ ["0"], 5001), S2) := by
  rw [exportAllM, ensureIndexO_some hidx]
  simp only
  rw [if_neg (by decide)]
  simp only [List.map_cons, List.map_nil, h0, h1, List.flatten_cons, List.flatten_nil,
    List.append_nil]
  rw [show (dupIds ++ ["0"]).length = 5001 from by
    rw [List.length_append, dupIds_length]
    rfl]

theorem roundTrip_eq_some {s : Storage} {ids : List String} {n : Nat} {s1 : Storage}
    (h : exportAllM s = (some (ids, n), s1)) :
    roundTrip s = (importIdsFromList (ids.map JsonVal.str) false s1).2 := by
  rw [roundTrip, h]

theorem c3_roundtrip_drop (S2 : Storage)
    (hidx : S2.index =
      some ⟨2, DL_CHUNK_SIZE, [chunkKeyFromNum 0, chunkKeyFromNum 1],
        [(chunkKeyFromNum 1, 1), (chunkKeyFromNum 1, 0), (chunkKeyFromNum 0, 5000)], 5001⟩)
    (h0 : getRec S2 (chunkKeyFromNum 0) = dupIds)
    (h1 : getRec S2 (chunkKeyFromNum 1) = ["0"]) :
    (memGetCount S2).1 = 5001 ∧ (memGetCount (roundTrip S2)).1 = 5000 := by
  have hpos2 : ∀ x ∈ dupIds ++ ["0"], 0 < x.length := by
    intro x hx
    rcases List.mem_append.mp hx with h | h
    · exact dupIds_pos x h
    · rw [List.mem_singleton.mp h]
      decide
  have hclean2 : dedupJS (jsFilterStrings ((dupIds ++ ["0"]).map JsonVal.str)) = dupIds := by
    rw [jsFilterStrings_map_str _ hpos2, dedupJS_append_mem dupIds_nodup zero_mem_dupIds]
  have hne2 : dedupJS (jsFilterStrings ((dupIds ++ ["0"]).map JsonVal.str)) ≠ [] := by
    rw [hclean2]
    exact dupIds_ne_nil
  have hcanon2 : ∀ k ∈ (⟨2, DL_CHUNK_SIZE, [chunkKeyFromNum 0, chunkKeyFromNum 1],
      [(chunkKeyFromNum 1, 1), (chunkKeyFromNum 1, 0), (chunkKeyFromNum 0, 5000)], 5001⟩ :
        Index).chunks, ∃ n, n ≤ 9999 ∧ k = chunkKeyFromNum n := by
    intro k hk
    simp only [List.mem_cons, List.not_mem_nil, or_false] at hk
    rcases hk with rfl | rfl
    · exact ⟨0, by omega, rfl⟩
    · exact ⟨1, by omega, rfl⟩
  constructor
  · rw [memGetCount_some hidx]
  · rw [roundTrip_eq_some (c3_export S2 hidx h0 h1)]
    obtain ⟨-, hcount, -, -⟩ :=
      override_spec ((dupIds ++ ["0"]).map JsonVal.str) S2 _ hidx hcanon2 hne2
    rw [hcount, hclean2, dupIds_length]

/-- **C3 is false as stated**: a store reachable from empty — import
5000 distinct identifiers (exactly filling chunk 0000), then `add` one
of them again, which duplicates it into chunk 0001 — has `count() =
5001`, but after `importOverride(exportAll())` the count is 5000: the
round trip collapses the cross-chunk duplicate. -/
theorem C3_cex_roundtrip_changes_count :
    Reach (memAddId "0"
      (importIdsFromList (dupIds.map JsonVal.str) false ⟨none, []⟩).2).2 ∧
    (memGetCount (memAddId "0"
      (importIdsFromList (dupIds.map JsonVal.str) false ⟨none, []⟩).2).2).1 = 5001 ∧
    (memGetCount (roundTrip (memAddId "0"
      (importIdsFromList (dupIds.map JsonVal.str) false ⟨none, []⟩).2).2)).1 = 5000 := by
  have hS1 := c3_S1_facts
  have hS2 := c3_dup_add _ hS1.1 hS1.2
  have hd := c3_roundtrip_drop _ hS2.1 hS2.2.1 hS2.2.2.1
  exact ⟨Reach.add "0" (Reach.doImport (dupIds.map JsonVal.str) false Reach.empty),
    hd.1, hd.2⟩

/-- **C3 (amended)**: the export/import round trip preserves `count()`
and the identifier set on every *consistent* store — index present,
chunk keys canonical (`chunk_0000`…`chunk_9999`), no identifier stored
twice across the chunks, no empty-string identifier, and the recorded
total equal to the number of stored identifiers. It fails on general
reachable stores, which can hold the same identifier in two chunks
(see the counterexample): there the round trip deduplicates and the
count shrinks. -/
theorem C3_roundtrip_on_consistent (s : Storage) (idx : Index)
    (hidx : s.index = some idx)
    (hcanon : ∀ k ∈ idx.chunks, ∃ n, n ≤ 9999 ∧ k = chunkKeyFromNum n)
    (hnd : ((idx.chunks.map (fun k => getRec s k)).flatten).Nodup)
    (hpos : ∀ x ∈ (idx.chunks.map (fun k => getRec s k)).flatten, 0 < x.length)
    (htot : idx.total = ((idx.chunks.map (fun k => getRec s k)).flatten).length) :
    (memGetCount (roundTrip s)).1 = (memGetCount s).1 ∧
    ∀ x, memberOf (roundTrip s) x = memberOf s x := by
  by_cases hch : idx.chunks = []
  · have hexp : exportAllM s = (none, s) := by
      rw [exportAllM, ensureIndexO_some hidx]
      simp only
      rw [if_pos hch]
    rw [roundTrip, hexp]
    exact ⟨rfl, fun _ => rfl⟩
  · have hexp : exportAllM s =
        (some ((idx.chunks.map (fun k => getRec s k)).flatten,
          ((idx.chunks.map (fun k => getRec s k)).flatten).length), s) := by
      rw [exportAllM, ensureIndexO_some hidx]
      simp only
      rw [if_neg hch]
    rw [roundTrip_eq_some hexp]
    by_cases hfl0 : (idx.chunks.map (fun k => getRec s k)).flatten = []
    · have hclean : dedupJS (jsFilterStrings
          (((idx.chunks.map (fun k => getRec s k)).flatten).map JsonVal.str)) = [] := by
        rw [jsFilterStrings_map_str _ hpos, dedupJS_eq_self hnd, hfl0]
      rw [import_noUsable false s hclean]
      exact ⟨rfl, fun _ => rfl⟩
    · have hclean : dedupJS (jsFilterStrings
          (((idx.chunks.map (fun k => getRec s k)).flatten).map JsonVal.str)) =
          (idx.chunks.map (fun k => getRec s k)).flatten := by
        rw [jsFilterStrings_map_str _ hpos, dedupJS_eq_self hnd]
      have hne : dedupJS (jsFilterStrings
          (((idx.chunks.map (fun k => getRec s k)).flatten).map JsonVal.str)) ≠ [] := by
        rw [hclean]
        exact hfl0
      obtain ⟨-, hcount, -, hmem⟩ := override_spec
        (((idx.chunks.map (fun k => getRec s k)).flatten).map JsonVal.str) s idx
        hidx hcanon hne
      constructor
      · rw [hcount, hclean, memGetCount_some hidx, htot]
      · intro x
        rw [hmem x, hclean, memberOf_some hidx x, contains_flatten_any]

theorem C3_roundtrip_on_consistent_witness :
    (memGetCount (roundTrip ⟨some ⟨2, 5000, [chunkKeyFromNum 0], [(chunkKeyFromNum 0, 2)], 2⟩,
      [(chunkKeyFromNum 0, ["a", "b"])]⟩)).1 =
      (memGetCount (⟨some ⟨2, 5000, [chunkKeyFromNum 0], [(chunkKeyFromNum 0, 2)], 2⟩,
        [(chunkKeyFromNum 0, ["a", "b"])]⟩ : Storage)).1 ∧
    ∀ x, memberOf (roundTrip ⟨some ⟨2, 5000, [chunkKeyFromNum 0], [(chunkKeyFromNum 0, 2)], 2⟩,
      [(chunkKeyFromNum 0, ["a", "b"])]⟩) x =
      memberOf (⟨some ⟨2, 5000, [chunkKeyFromNum 0], [(chunkKeyFromNum 0, 2)], 2⟩,
        [(chunkKeyFromNum 0, ["a", "b"])]⟩ : Storage) x :=
  C3_roundtrip_on_consistent
    ⟨some ⟨2, 5000, [chunkKeyFromNum 0], [(chunkKeyFromNum 0, 2)], 2⟩,
      [(chunkKeyFromNum 0, ["a", "b"])]⟩
    ⟨2, 5000, [chunkKeyFromNum 0], [(chunkKeyFromNum 0, 2)], 2⟩
    rfl
    (fun k hk => ⟨0, by omega, List.mem_singleton.mp hk⟩)
    (by decide) (by decide) (by decide)
